import Mathlib

/-!
# Verification of the MyGIT object store, codecs and transfer core

This file gives a shallow embedding, over byte lists, of the core of the
MyGIT version-control tool (Go sources under `internal/objects`,
`internal/commands/push.go` and their sibling drafts), and proves or refutes
the frozen specification claims about it.

Conventions of the embedding:
* Go byte slices and Go strings are both modelled as `List Nat` (`Bytes`),
  one `Nat` per byte; all string literals appearing in the Go code are ASCII,
  so `Char.toNat` gives their byte values.
* The filesystem tree under `objects/` is modelled as an association list
  from the digest (the Go code derives the file path from the digest by
  splitting after two hex characters, a bijection that we do not need to
  model) to the stored byte blob.  zlib compression is an external inverse
  pair (`compress`/`decompress`); the model stores the uncompressed stream.
* SHA-1 is an external cryptographic primitive; it enters the model as an
  explicit function parameter `sha1hex`, with its relevant properties
  (injectivity on the inputs at hand, digest length) as hypotheses where a
  theorem needs them.
* Process-terminating `panic` calls in the Go code are modelled as the
  `Except.error` branch of the corresponding Lean function, so that the
  presence or absence of termination behaviour is visible in the type.
-/

set_option maxHeartbeats 1000000

namespace MyGit

/-- Byte strings: one `Nat` per byte. -/
abbrev Bytes := List Nat

/-- ASCII string helper: byte values of a list of characters. -/
def chars (l : List Char) : Bytes := l.map Char.toNat

/-- The Go `ObjectType` constant `"blob"`. -/
def blobKind : Bytes := chars ['b', 'l', 'o', 'b']

/-- The Go `ObjectType` constant `"tree"`. -/
def treeKind : Bytes := chars ['t', 'r', 'e', 'e']

/-- The Go `ObjectType` constant `"commit"`. -/
def commitKind : Bytes := chars ['c', 'o', 'm', 'm', 'i', 't']

/-! ## Decimal rendering (`fmt.Sprintf("%d", n)` for a non-negative value)

The natural recursion is on `n / 10`, which is not structural; we thread an
explicit fuel argument (any fuel `≥ n` gives the same answer) so that the
function still evaluates by `decide`/`rfl`. -/

def natDigitsAux : Nat → Nat → Bytes
  | 0, n => [48 + n]
  | fuel + 1, n => if n < 10 then [48 + n] else natDigitsAux fuel (n / 10) ++ [48 + n % 10]

/-- ASCII decimal digits of a natural number, most significant first. -/
def natDigits (n : Nat) : Bytes := natDigitsAux n n

theorem natDigitsAux_congr : ∀ f₁ f₂ n : Nat, n ≤ f₁ → n ≤ f₂ →
    natDigitsAux f₁ n = natDigitsAux f₂ n := by
  intro f₁
  induction f₁ using Nat.strong_induction_on with
  | _ f₁ ih =>
    intro f₂ n h₁ h₂
    match f₁, f₂ with
    | 0, f₂ =>
      have hn : n = 0 := by omega
      subst hn
      match f₂ with
      | 0 => rfl
      | f₂ + 1 => simp [natDigitsAux]
    | f₁ + 1, 0 =>
      have hn : n = 0 := by omega
      subst hn
      simp [natDigitsAux]
    | f₁ + 1, f₂ + 1 =>
      simp only [natDigitsAux]
      by_cases hn : n < 10
      · simp [hn]
      · have hds := Nat.div_lt_self (show 0 < n by omega) (show 1 < 10 by omega)
        have hd : n / 10 ≤ f₁ := by omega
        have hd₂ : n / 10 ≤ f₂ := by omega
        simp only [hn, if_false]
        rw [ih f₁ (by omega) f₂ (n / 10) hd hd₂]

/-- Unfolding equation for `natDigits` that hides the fuel. -/
theorem natDigits_eq (n : Nat) :
    natDigits n = if n < 10 then [48 + n] else natDigits (n / 10) ++ [48 + n % 10] := by
  by_cases hn : n < 10
  · unfold natDigits
    match n, hn with
    | 0, _ => simp [natDigitsAux]
    | n + 1, hn => simp [natDigitsAux, hn]
  · have h1 : n ≥ 10 := by omega
    obtain ⟨m, hm⟩ : ∃ m, n = m + 1 := ⟨n - 1, by omega⟩
    unfold natDigits
    subst hm
    simp only [natDigitsAux, hn, if_false]
    congr 1
    have hds := Nat.div_lt_self (show 0 < m + 1 by omega) (show 1 < 10 by omega)
    exact natDigitsAux_congr m ((m + 1) / 10) ((m + 1) / 10) (by omega) (le_refl _)

theorem natDigits_mem (n : Nat) : ∀ b ∈ natDigits n, 48 ≤ b ∧ b ≤ 57 := by
  induction n using Nat.strong_induction_on with
  | _ n ih =>
    rw [natDigits_eq]
    by_cases hn : n < 10
    · simp only [hn, if_true]
      intro b hb
      simp at hb
      omega
    · simp only [hn, if_false]
      intro b hb
      rcases List.mem_append.mp hb with h | h
      · exact ih (n / 10) (by omega) b h
      · simp at h
        have := Nat.mod_lt n (show 0 < 10 by omega)
        omega

theorem natDigits_ne_nil (n : Nat) : natDigits n ≠ [] := by
  rw [natDigits_eq]
  by_cases hn : n < 10 <;> simp [hn]

/-! ## Basic byte-string utilities shared by the Go code
(`bytes.IndexByte`, `strings.SplitN(s, sep, 2)`). -/

/-- `bytes.IndexByte`: index of the first occurrence of `b`, if any. -/
def indexOfByte (b : Nat) : Bytes → Option Nat
  | [] => none
  | x :: r => if x = b then some 0 else (indexOfByte b r).map (· + 1)

theorem indexOfByte_append (b : Nat) (l r : Bytes) (hl : b ∉ l) :
    indexOfByte b (l ++ b :: r) = some l.length := by
  induction l with
  | nil => simp [indexOfByte]
  | cons x xs ih =>
    have hx : x ≠ b := by intro h; exact hl (h ▸ List.mem_cons_self x xs)
    have ih2 := ih (fun h => hl (List.mem_cons_of_mem x h))
    show (if x = b then some 0 else (indexOfByte b (xs ++ b :: r)).map (· + 1))
      = some (x :: xs).length
    rw [if_neg hx, ih2]
    rfl

theorem indexOfByte_eq_none (b : Nat) (l : Bytes) (hl : b ∉ l) :
    indexOfByte b l = none := by
  induction l with
  | nil => rfl
  | cons x xs ih =>
    have hx : x ≠ b := by intro h; exact hl (h ▸ List.mem_cons_self x xs)
    have ih2 := ih (fun h => hl (List.mem_cons_of_mem x h))
    show (if x = b then some 0 else (indexOfByte b xs).map (· + 1)) = none
    rw [if_neg hx, ih2]
    rfl

/-- `strings.SplitN(s, sep, 2)`: `none` models the 1-element result (no
separator present); `some (a, b)` models the split at the first separator. -/
def splitN2 (sep : Nat) (s : Bytes) : Option (Bytes × Bytes) :=
  match indexOfByte sep s with
  | none => none
  | some i => some (s.take i, s.drop (i + 1))

theorem splitN2_append (sep : Nat) (l r : Bytes) (hl : sep ∉ l) :
    splitN2 sep (l ++ sep :: r) = some (l, r) := by
  unfold splitN2
  rw [indexOfByte_append sep l r hl]
  simp

/-! ## The object store (`internal/objects`, `part_005`)

`ObjectStore` state is the association list digest ↦ stored stream. -/

abbrev Store := List (Bytes × Bytes)

def storeLookup (s : Store) (h : Bytes) : Option Bytes :=
  match s with
  | [] => none
  | (k, d) :: r => if k = h then some d else storeLookup r h

theorem storeLookup_mem {s : Store} {h d : Bytes} (hl : storeLookup s h = some d) :
    (h, d) ∈ s := by
  induction s with
  | nil => simp [storeLookup] at hl
  | cons p r ih =>
    obtain ⟨k, v⟩ := p
    simp only [storeLookup] at hl
    by_cases hk : k = h
    · simp only [hk, if_true] at hl
      subst hk
      injection hl with hv
      subst hv
      exact List.mem_cons_self _ _
    · simp only [hk, if_false] at hl
      exact List.mem_cons_of_mem _ (ih hl)

/-- The header `"<kind> <len>\x00"` prepended to every stored object
(`fmt.Sprintf("%s %d\x00", objType, len(content))`). -/
def objectHeader (objType content : Bytes) : Bytes :=
  objType ++ 32 :: (natDigits content.length ++ [0])

/-- `ObjectStore.HashObject`: SHA-1 (as lowercase hex) of header plus content.
The SHA-1-plus-hex-encoding step is the explicit parameter `sha1hex`. -/
def HashObject (sha1hex : Bytes → Bytes) (content objType : Bytes) : Bytes :=
  sha1hex (objectHeader objType content ++ content)

/-- `ObjectStore.WriteObject`.  Filesystem failures (directory creation,
compression, file write) are outside the model; the dedup check
(`os.Stat` on the derived path) is the lookup.  Returns the digest and the
updated store. -/
def WriteObject (sha1hex : Bytes → Bytes) (s : Store) (content objType : Bytes) :
    Bytes × Store :=
  let hash := HashObject sha1hex content objType
  match storeLookup s hash with
  | some _ => (hash, s)
  | none => (hash, (hash, objectHeader objType content ++ content) :: s)

/-- The Go `Object` struct. -/
structure Object where
  type : Bytes
  size : Nat
  content : Bytes
  hash : Bytes
  deriving DecidableEq

/-- The error cases of `ObjectStore.ReadObject` (the Go code returns
distinct `fmt.Errorf` messages; we keep them as an enumeration). -/
inductive ReadErr where
  | hashTooShort
  | notFound
  | noNullTerminator
  | badHeader
  deriving DecidableEq

/-- `ObjectStore.ReadObject`: look up the stored stream, split the header at
the first null byte, split kind from declared length at the first space. -/
def ReadObject (s : Store) (hash : Bytes) : Except ReadErr Object :=
  if hash.length < 4 then .error .hashTooShort
  else
    match storeLookup s hash with
    | none => .error .notFound
    | some decompressed =>
      match indexOfByte 0 decompressed with
      | none => .error .noNullTerminator
      | some nullIndex =>
        match splitN2 32 (decompressed.take nullIndex) with
        | none => .error .badHeader
        | some (t, _) =>
          .ok ⟨t, (decompressed.drop (nullIndex + 1)).length,
            decompressed.drop (nullIndex + 1), hash⟩

/-- A digest is readable in a store when `ReadObject` succeeds on it. -/
def Readable (s : Store) (h : Bytes) : Prop := ∃ obj, ReadObject s h = .ok obj

theorem kind_no_space_no_null :
    ∀ k, (k = blobKind ∨ k = treeKind ∨ k = commitKind) → 32 ∉ k ∧ 0 ∉ k := by
  intro k hk
  rcases hk with h | h | h <;> subst h <;> constructor <;> decide

/-- Parsing a well-formed stored stream `header ++ content` recovers the kind
and the content, for any kind free of space and null bytes. -/
theorem readObject_parse (s : Store) (hash content objType : Bytes)
    (hfind : storeLookup s hash = some (objectHeader objType content ++ content))
    (hlen : 4 ≤ hash.length) (h32 : 32 ∉ objType) (h0 : 0 ∉ objType) :
    ReadObject s hash = .ok ⟨objType, content.length, content, hash⟩ := by
  unfold ReadObject
  have hnotlt : ¬ hash.length < 4 := by omega
  simp only [hnotlt, if_false, hfind]
  have hdr0 : (0 : Nat) ∉ objType ++ 32 :: natDigits content.length := by
    intro hmem
    rcases List.mem_append.mp hmem with h | h
    · exact h0 h
    · rcases List.mem_cons.mp h with h | h
      · omega
      · have := natDigits_mem content.length 0 h
        omega
  have harr : objectHeader objType content ++ content
      = (objType ++ 32 :: natDigits content.length) ++ 0 :: content := by
    simp [objectHeader]
  have hidx : indexOfByte 0 ((objType ++ 32 :: natDigits content.length) ++ 0 :: content)
      = some (objType ++ 32 :: natDigits content.length).length :=
    indexOfByte_append 0 _ _ hdr0
  have htake : ((objType ++ 32 :: natDigits content.length) ++ 0 :: content).take
      (objType ++ 32 :: natDigits content.length).length
      = objType ++ 32 :: natDigits content.length := List.take_left _ _
  have hlenstep : ((objType ++ 32 :: natDigits content.length) ++ [0]).length
      = (objType ++ 32 :: natDigits content.length).length + 1 := by
    simp only [List.length_append, List.length_cons, List.length_nil]
  have hdrop : ((objType ++ 32 :: natDigits content.length) ++ 0 :: content).drop
      ((objType ++ 32 :: natDigits content.length).length + 1) = content := by
    have hsplit : (objType ++ 32 :: natDigits content.length) ++ 0 :: content
        = ((objType ++ 32 :: natDigits content.length) ++ [0]) ++ content := by
      simp
    rw [hsplit]
    exact List.drop_left' hlenstep
  have hsp2 : splitN2 32 (objType ++ 32 :: natDigits content.length)
      = some (objType, natDigits content.length) :=
    splitN2_append 32 objType (natDigits content.length) h32
  simp only [harr, hidx, htake, hdrop, hsp2]

/-- Claim C1 (object-store round-trip): writing `(content, kind)` for any of
the three kinds and reading the returned digest back yields an object with
byte-identical content and the same kind.  `sha1hex` is the external SHA-1
hex digest function: collision-freeness (injectivity) and the 40-character
digest length (here only `≥ 4` is needed) are its assumed properties, and
the store is assumed well-formed (every stored entry is keyed by the digest
of its stream, which is how every entry is created). -/
theorem WriteObject_ReadObject_roundtrip (sha1hex : Bytes → Bytes)
    (hinj : Function.Injective sha1hex)
    (hlen : ∀ x, 4 ≤ (sha1hex x).length) (s : Store)
    (hwf : ∀ p ∈ s, p.1 = sha1hex p.2)
    (content objType : Bytes)
    (hk : objType = blobKind ∨ objType = treeKind ∨ objType = commitKind) :
    ∃ obj,
      ReadObject (WriteObject sha1hex s content objType).2
        (WriteObject sha1hex s content objType).1 = .ok obj
      ∧ obj.content = content ∧ obj.type = objType := by
  obtain ⟨h32, h0⟩ := kind_no_space_no_null objType hk
  refine ⟨⟨objType, content.length, content, HashObject sha1hex content objType⟩, ?_, rfl, rfl⟩
  unfold WriteObject
  cases hcase : storeLookup s (HashObject sha1hex content objType) with
  | some d =>
    simp only [hcase]
    have hmem := storeLookup_mem hcase
    have hkey := hwf _ hmem
    simp only at hkey
    have hd : d = objectHeader objType content ++ content := by
      apply hinj
      rw [← hkey]
      rfl
    subst hd
    exact readObject_parse s _ content objType hcase (hlen _) h32 h0
  | none =>
    simp only [hcase]
    apply readObject_parse _ _ content objType _ (hlen _) h32 h0
    simp [storeLookup, HashObject]

/-- Witness for C1 at a concrete input: `sha1hex` is instantiated with an
injective stand-in of digest length ≥ 4, the store is empty, the content is
the single byte `"a"` and the kind is `blob`. -/
theorem WriteObject_ReadObject_roundtrip_witness :
    ∃ obj,
      ReadObject (WriteObject (fun x => 0 :: 0 :: 0 :: 0 :: x) [] [97] blobKind).2
        (WriteObject (fun x => 0 :: 0 :: 0 :: 0 :: x) [] [97] blobKind).1 = .ok obj
      ∧ obj.content = [97] ∧ obj.type = blobKind :=
  WriteObject_ReadObject_roundtrip (fun x => 0 :: 0 :: 0 :: 0 :: x)
    (fun a b hab => by simpa using hab)
    (fun x => by simp)
    [] (by simp) [97] blobKind (Or.inl rfl)

/-- Claim C7 (write idempotence): a second `WriteObject` with the identical
content and kind returns the same digest and leaves the store untouched (the
dedup check finds the object written by the first call, so nothing is
rewritten; the model has no error case because only filesystem faults can
make the Go function fail). -/
theorem WriteObject_idempotent (sha1hex : Bytes → Bytes) (s : Store)
    (content objType : Bytes) :
    WriteObject sha1hex (WriteObject sha1hex s content objType).2 content objType
      = WriteObject sha1hex s content objType := by
  unfold WriteObject
  cases hcase : storeLookup s (HashObject sha1hex content objType) with
  | some d => simp [hcase]
  | none => simp [hcase, storeLookup]

/-! ## Lexicographic byte-string order

Go compares strings byte-lexicographically (`sort.Strings`, `s1 < s2` in
`sort.Slice` comparators); `lexLe`/`lexLt` are that order. -/

def lexLe : Bytes → Bytes → Bool
  | [], _ => true
  | _ :: _, [] => false
  | a :: as, b :: bs => if a < b then true else if b < a then false else lexLe as bs

def lexLt : Bytes → Bytes → Bool
  | [], [] => false
  | [], _ :: _ => true
  | _ :: _, [] => false
  | a :: as, b :: bs => if a < b then true else if b < a then false else lexLt as bs

theorem lexLe_total : ∀ a b : Bytes, lexLe a b = true ∨ lexLe b a = true := by
  intro a
  induction a with
  | nil => intro b; left; rfl
  | cons x xs ih =>
    intro b
    cases b with
    | nil => right; rfl
    | cons y ys =>
      by_cases hxy : x < y
      · left; simp [lexLe, hxy]
      · by_cases hyx : y < x
        · right; simp [lexLe, hyx]
        · have hxe : ¬ x < y := hxy
          rcases ih ys with h | h
          · left; simp [lexLe, hxy, hyx, h]
          · right; simp [lexLe, hxy, hyx, h]

theorem lexLe_trans : ∀ a b c : Bytes, lexLe a b = true → lexLe b c = true →
    lexLe a c = true := by
  intro a
  induction a with
  | nil => intro b c _ _; rfl
  | cons x xs ih =>
    intro b c hab hbc
    cases b with
    | nil => simp [lexLe] at hab
    | cons y ys =>
      cases c with
      | nil => simp [lexLe] at hbc
      | cons z zs =>
        simp only [lexLe] at hab hbc ⊢
        rcases Nat.lt_trichotomy x y with hxy | hxy | hxy
        · rcases Nat.lt_trichotomy y z with hyz | hyz | hyz
          · simp [show x < z by omega]
          · subst hyz
            simp [hxy]
          · simp [show ¬ y < z by omega, hyz] at hbc
        · subst hxy
          rcases Nat.lt_trichotomy x z with hxz | hxz | hxz
          · simp [hxz]
          · subst hxz
            simp only [lt_self_iff_false, if_false] at hab hbc ⊢
            exact ih _ _ hab hbc
          · simp [show ¬ x < z by omega, hxz] at hbc
        · simp [show ¬ x < y by omega, hxy] at hab

theorem lexLe_antisymm : ∀ a b : Bytes, lexLe a b = true → lexLe b a = true → a = b := by
  intro a
  induction a with
  | nil =>
    intro b _ hba
    cases b with
    | nil => rfl
    | cons y ys => simp [lexLe] at hba
  | cons x xs ih =>
    intro b hab hba
    cases b with
    | nil => simp [lexLe] at hab
    | cons y ys =>
      simp only [lexLe] at hab hba
      by_cases hxy : x < y
      · simp [show ¬ y < x by omega, hxy] at hba
      · by_cases hyx : y < x
        · simp [hxy, hyx] at hab
        · have hxye : x = y := by omega
          subst hxye
          simp [hxy] at hab hba
          rw [ih _ hab hba]

theorem lexLt_iff : ∀ a b : Bytes, lexLt a b = true ↔ (lexLe a b = true ∧ a ≠ b) := by
  intro a
  induction a with
  | nil =>
    intro b
    cases b with
    | nil => simp [lexLt, lexLe]
    | cons y ys => simp [lexLt, lexLe]
  | cons x xs ih =>
    intro b
    cases b with
    | nil => simp [lexLt, lexLe]
    | cons y ys =>
      simp only [lexLt, lexLe]
      by_cases hxy : x < y
      · simp [hxy]
        omega
      · by_cases hyx : y < x
        · simp [hxy, hyx]
        · have hxye : x = y := by omega
          subst hxye
          simp [hxy, ih ys]

theorem lexLt_asymm (a b : Bytes) (hab : lexLt a b = true) (hba : lexLt b a = true) :
    False := by
  rw [lexLt_iff] at hab hba
  exact hab.2 (lexLe_antisymm _ _ hab.1 hba.1)

/-- The sort order used for digests (`sort.Strings`). -/
def DigestLe (a b : Bytes) : Prop := lexLe a b = true

instance : DecidableRel DigestLe := fun a b =>
  inferInstanceAs (Decidable (lexLe a b = true))

instance : IsTotal Bytes DigestLe := ⟨lexLe_total⟩

instance : IsTrans Bytes DigestLe := ⟨lexLe_trans⟩

/-! ## Hex encoding and decoding (`encoding/hex`) -/

/-- ASCII character for a hex digit value (lowercase, as `encoding/hex` and
`fmt %x` produce). -/
def hexDigitChar (n : Nat) : Nat := if n < 10 then 48 + n else 87 + n

/-- Hex digit value of an ASCII byte; accepts both cases as `encoding/hex`,
`fmt.Sscanf %x` and `strconv.ParseInt(_, 16, _)` do. -/
def hexDigitVal (b : Nat) : Option Nat :=
  if 48 ≤ b ∧ b ≤ 57 then some (b - 48)
  else if 97 ≤ b ∧ b ≤ 102 then some (b - 87)
  else if 65 ≤ b ∧ b ≤ 70 then some (b - 55)
  else none

/-- `hex.EncodeToString`: two lowercase hex digits per byte. -/
def hexEncode : Bytes → Bytes
  | [] => []
  | b :: r => hexDigitChar (b / 16 % 16) :: hexDigitChar (b % 16) :: hexEncode r

/-- `hex.DecodeString`: fails on odd length or a non-hex digit. -/
def hexDecode : Bytes → Option Bytes
  | [] => some []
  | [_] => none
  | a :: b :: r =>
    match hexDigitVal a, hexDigitVal b, hexDecode r with
    | some x, some y, some rest => some ((16 * x + y) :: rest)
    | _, _, _ => none

/-! ## Trees (`internal/objects/tree.go`, drafts in `part_006`)

Go struct fields `Mode`, `Name`, `Hash`, `Type` become lowercase fields. -/

structure TreeEntry where
  mode : Bytes
  name : Bytes
  hash : Bytes
  type : Bytes
  deriving DecidableEq

structure Tree where
  entries : List TreeEntry
  deriving DecidableEq

def mode100644 : Bytes := chars ['1', '0', '0', '6', '4', '4']

def mode100755 : Bytes := chars ['1', '0', '0', '7', '5', '5']

def mode40000 : Bytes := chars ['4', '0', '0', '0', '0']

/-- Loop body of `ParseTree` (`tree.go:72-118`): scan entries until the data
is exhausted or malformed; on malformed data the Go code `break`s out and
returns the entries collected so far with a nil error.  With absolute
indices `spaceIdx = offset + si` and `nullIdx = offset + si + 1 + ni`, the
loop resumes at `nullIdx + 21 = offset + si + 1 + ni + 21` (`tree.go:115`).
The fuel is an artefact of the embedding (each round advances the offset by
`si + ni + 22 ≥ 22`); `parseTreeAux_congr` below shows any fuel ≥ the
remaining length divided by 22 gives the same value, so the wrapper's
choice is irrelevant. -/
def parseTreeAux (content : Bytes) : Nat → Nat → List TreeEntry
  | 0, _ => []
  | fuel + 1, offset =>
    if offset < content.length then
      match indexOfByte 32 (content.drop offset) with
      | none => []
      | some si =>
        match indexOfByte 0 (content.drop (offset + si + 1)) with
        | none => []
        | some ni =>
          if offset + si + 1 + ni + 21 > content.length then []
          else
            { mode := (content.drop offset).take si
              name := (content.drop (offset + si + 1)).take ni
              hash := hexEncode ((content.drop (offset + si + 1 + ni + 1)).take 20)
              type :=
                if (content.drop offset).take si = mode100644
                    ∨ (content.drop offset).take si = mode100755 then blobKind
                else if (content.drop offset).take si = mode40000 then treeKind
                else blobKind } :: parseTreeAux content fuel (offset + si + 1 + ni + 21)
    else []

theorem parseTreeAux_congr (content : Bytes) :
    ∀ f₁ f₂ o : Nat, content.length ≤ o + 22 * f₁ → content.length ≤ o + 22 * f₂ →
      parseTreeAux content f₁ o = parseTreeAux content f₂ o := by
  intro f₁
  induction f₁ with
  | zero =>
    intro f₂ o h₁ h₂
    cases f₂ with
    | zero => rfl
    | succ f₂ =>
      simp only [parseTreeAux]
      have : ¬ o < content.length := by omega
      simp [this]
  | succ f₁ ih =>
    intro f₂ o h₁ h₂
    cases f₂ with
    | zero =>
      simp only [parseTreeAux]
      have : ¬ o < content.length := by omega
      simp [this]
    | succ f₂ =>
      simp only [parseTreeAux]
      by_cases ho : o < content.length
      · simp only [ho, if_true]
        cases hsi : indexOfByte 32 (content.drop o) with
        | none => rfl
        | some si =>
          simp only
          cases hni : indexOfByte 0 (content.drop (o + si + 1)) with
          | none => rfl
          | some ni =>
            simp only
            by_cases hb : o + si + 1 + ni + 21 > content.length
            · simp [hb]
            · simp only [hb, if_false]
              rw [ih f₂ (o + si + 1 + ni + 21) (by omega) (by omega)]
      · simp [ho]

/-- `ParseTree` (`tree.go:72-118`).  The Go function returns `(*Tree, error)`
but has no error-returning path: every malformed case `break`s and the final
`return tree, nil` runs, which the second component (always `none`) records. -/
def ParseTree (content : Bytes) : Tree × Option ReadErr :=
  (⟨parseTreeAux content (content.length + 1) 0⟩, none)

/-! ## `Tree.Serialize` as in `internal/objects/tree.go:39-70`

This variant validates each entry and `panic`s (terminating the process) on
an invalid mode, on a hash whose length is not 40, or on a hash that fails
hex decoding; it serializes the entries in stored order without sorting.
A Go `panic` is modelled as `Except.error` carrying the panicked data: an
`.error` value of this function means the Go process dies, not that an
error value is returned to the caller. -/

inductive TreeFatal where
  | invalidMode (mode name : Bytes)
  | invalidHashLength (name : Bytes) (len : Nat)
  | hashDecodeFailed (name : Bytes)
  deriving DecidableEq

/-- The `validModes` set of `tree.go:42-46`: `100644`, `100755`, `40000`. -/
def validMode (m : Bytes) : Bool :=
  m == mode100644 || m == mode100755 || m == mode40000

def serializeEntry (e : TreeEntry) : Except TreeFatal Bytes :=
  if ¬ validMode e.mode then .error (.invalidMode e.mode e.name)
  else if e.hash.length ≠ 40 then .error (.invalidHashLength e.name e.hash.length)
  else
    match hexDecode e.hash with
    | none => .error (.hashDecodeFailed e.name)
    | some hashBytes =>
      if hashBytes.length ≠ 20 then .error (.hashDecodeFailed e.name)
      else .ok (e.mode ++ 32 :: (e.name ++ 0 :: hashBytes))

def serializeEntryList : List TreeEntry → Except TreeFatal Bytes
  | [] => .ok []
  | e :: rest =>
    match serializeEntry e with
    | .error p => .error p
    | .ok bs =>
      match serializeEntryList rest with
      | .error p => .error p
      | .ok bs2 => .ok (bs ++ bs2)

/-- `Tree.Serialize` (`tree.go:39-70`). -/
def Tree.Serialize (t : Tree) : Except TreeFatal Bytes := serializeEntryList t.entries

theorem hexDecode_some (h : Bytes) {out : Bytes} (hd : hexDecode h = some out) :
    2 * out.length = h.length ∧ ∀ b ∈ h, (hexDigitVal b).isSome = true := by
  induction h using hexDecode.induct generalizing out with
  | case1 =>
    simp only [hexDecode] at hd
    injection hd with hd
    subst hd
    simp
  | case2 a => simp [hexDecode] at hd
  | case3 a b r x y rest hr hb ha ih =>
    simp only [hexDecode, hr, hb, ha] at hd
    injection hd with hd
    subst hd
    obtain ⟨hlen, hall⟩ := ih hr
    refine ⟨by simp; omega, ?_⟩
    intro c hc
    rcases List.mem_cons.mp hc with hc | hc
    · subst hc; simp [ha]
    · rcases List.mem_cons.mp hc with hc | hc
      · subst hc; simp [hb]
      · exact hall c hc
  | case4 a b r hfail ih =>
    exfalso
    simp only [hexDecode] at hd
    cases ha : hexDigitVal a with
    | none => simp at hd
    | some x =>
      cases hb : hexDigitVal b with
      | none => simp at hd
      | some y =>
        cases hr : hexDecode r with
        | none => simp at hd
        | some rest => exact hfail x y rest ha hb hr

theorem hexDecode_total (h : Bytes) (hmod : h.length % 2 = 0)
    (hall : ∀ b ∈ h, (hexDigitVal b).isSome = true) :
    ∃ out, hexDecode h = some out ∧ 2 * out.length = h.length := by
  induction h using hexDecode.induct with
  | case1 => exact ⟨[], rfl, rfl⟩
  | case2 a => simp at hmod
  | case3 a b r x y rest hr hb ha ih =>
    obtain ⟨out, hout, hlen⟩ := ih (by simp at hmod; omega)
      (fun c hc => hall c (by simp [hc]))
    rw [hr] at hout
    injection hout with hout
    subst hout
    refine ⟨(16 * x + y) :: rest, ?_, by simp; omega⟩
    simp [hexDecode, ha, hb, hr]
  | case4 a b r hfail ih =>
    exfalso
    have ha := hall a (by simp)
    have hb := hall b (by simp)
    obtain ⟨x, hx⟩ := Option.isSome_iff_exists.mp ha
    obtain ⟨y, hy⟩ := Option.isSome_iff_exists.mp hb
    obtain ⟨out, hout, _⟩ := ih (by simp at hmod; omega)
      (fun c hc => hall c (by simp [hc]))
    exact hfail x y out hx hy hout

/-- The conditions under which `tree.go:39-70` serializes an entry without
panicking. -/
def validEntry (e : TreeEntry) : Prop :=
  validMode e.mode = true ∧ e.hash.length = 40 ∧ ∀ b ∈ e.hash, (hexDigitVal b).isSome = true

theorem serializeEntry_ok_iff (e : TreeEntry) :
    (∃ bs, serializeEntry e = .ok bs) ↔ validEntry e := by
  unfold serializeEntry validEntry
  by_cases hm : validMode e.mode = true
  · by_cases hl : e.hash.length = 40
    · rw [if_neg (by simp [hm]), if_neg (by simp [hl])]
      cases hd : hexDecode e.hash with
      | none =>
        constructor
        · rintro ⟨bs, hbs⟩
          exact absurd hbs (by simp)
        · rintro ⟨_, _, hall⟩
          obtain ⟨out, hout, _⟩ := hexDecode_total e.hash (by omega) hall
          rw [hd] at hout
          exact absurd hout (by simp)
      | some out =>
        obtain ⟨hlen, hall⟩ := hexDecode_some e.hash hd
        have h20 : out.length = 20 := by omega
        have hser : (match some out with
            | none => Except.error (TreeFatal.hashDecodeFailed e.name)
            | some hashBytes =>
              if hashBytes.length ≠ 20 then Except.error (TreeFatal.hashDecodeFailed e.name)
              else Except.ok (e.mode ++ 32 :: (e.name ++ 0 :: hashBytes)))
            = Except.ok (e.mode ++ 32 :: (e.name ++ 0 :: out)) := by
          show (if out.length ≠ 20 then Except.error (TreeFatal.hashDecodeFailed e.name)
              else Except.ok (e.mode ++ 32 :: (e.name ++ 0 :: out)))
            = Except.ok (e.mode ++ 32 :: (e.name ++ 0 :: out))
          rw [if_neg (by omega)]
        rw [hser]
        exact ⟨fun _ => ⟨hm, hl, hall⟩, fun _ => ⟨_, rfl⟩⟩
    · rw [if_neg (by simp [hm]), if_pos (by simp [hl])]
      constructor
      · rintro ⟨bs, hbs⟩
        exact absurd hbs (by simp)
      · rintro ⟨_, h40, _⟩
        exact absurd h40 hl
  · rw [if_pos (by simpa using hm)]
    constructor
    · rintro ⟨bs, hbs⟩
      exact absurd hbs (by simp)
    · rintro ⟨hvm, _, _⟩
      exact absurd hvm hm

theorem serializeEntryList_ok_iff : ∀ l : List TreeEntry,
    (∃ bs, serializeEntryList l = .ok bs) ↔ ∀ e ∈ l, validEntry e := by
  intro l
  induction l with
  | nil => simp [serializeEntryList]
  | cons e rest ih =>
    simp only [serializeEntryList]
    cases he : serializeEntry e with
    | error p =>
      constructor
      · rintro ⟨bs, hbs⟩
        exact absurd hbs (by simp)
      · intro hall
        obtain ⟨bs, hbs⟩ := (serializeEntry_ok_iff e).mpr (hall e (by simp))
        rw [he] at hbs
        exact absurd hbs (by simp)
    | ok bs =>
      cases hrest : serializeEntryList rest with
      | error p =>
        constructor
        · rintro ⟨bs2, hbs2⟩
          exact absurd hbs2 (by simp)
        · intro hall
          obtain ⟨bs2, hbs2⟩ := ih.mpr (fun x hx => hall x (by simp [hx]))
          rw [hrest] at hbs2
          exact absurd hbs2 (by simp)
      | ok bs2 =>
        constructor
        · intro _ x hx
          rcases List.mem_cons.mp hx with hx | hx
          · subst hx
            exact (serializeEntry_ok_iff x).mp ⟨bs, he⟩
          · exact (ih.mp ⟨bs2, hrest⟩) x hx
        · intro _
          exact ⟨bs ++ bs2, rfl⟩

/-- Claim C10, amended: `Tree.Serialize` (`tree.go:39-70`) terminates the
process (`panic`, modelled as `.error`) rather than returning an error
value whenever some entry has an invalid mode, a hash of the wrong length
or a non-hex hash; it completes exactly when every entry is valid.  The
error-value design in the spec is a reimplementation note, not the
behaviour of this code. -/
theorem Serialize_ok_iff_valid (t : Tree) :
    (∃ bs, Tree.Serialize t = .ok bs) ↔ ∀ e ∈ t.entries, validEntry e :=
  serializeEntryList_ok_iff t.entries

/-- Witness for the amended C10 characterization at concrete inputs: a tree
with a valid entry serializes, and the `.ok`-ness transfers through the
equivalence. -/
theorem Serialize_ok_iff_valid_witness :
    ∃ bs, Tree.Serialize ⟨[⟨mode100644, [97], List.replicate 40 48, blobKind⟩]⟩ = .ok bs :=
  (Serialize_ok_iff_valid ⟨[⟨mode100644, [97], List.replicate 40 48, blobKind⟩]⟩).mpr
    (by intro e he; simp at he; subst he; refine ⟨by decide, by decide, by decide⟩)

/-- Counterexample for claim C10 as stated: serializing a tree whose single
entry carries the invalid mode `"bad"` panics — the Go process terminates —
instead of surfacing an error value. -/
theorem Serialize_invalid_mode_panics :
    Tree.Serialize ⟨[⟨chars ['b', 'a', 'd'], [97], List.replicate 40 97, blobKind⟩]⟩
      = .error (.invalidMode (chars ['b', 'a', 'd']) [97]) := by
  rfl

/-! ## `Tree.Serialize` as in `part_006:38-59`

This draft sorts the entries by name before serializing (`sort.Slice` with
comparator `Entries[i].Name < Entries[j].Name`), and decodes the hash with
twenty ignored-error `fmt.Sscanf("%02x")` calls on 2-character slices. -/

/-- The sort order of `part_006:39-41` on entries (by name, byte-wise). -/
def NameLe (e₁ e₂ : TreeEntry) : Prop := lexLe e₁.name e₂.name = true

instance : DecidableRel NameLe := fun e₁ e₂ =>
  inferInstanceAs (Decidable (lexLe e₁.name e₂.name = true))

instance : IsTotal TreeEntry NameLe := ⟨fun a b => lexLe_total a.name b.name⟩

instance : IsTrans TreeEntry NameLe := ⟨fun a b c => lexLe_trans a.name b.name c.name⟩

/-- One `fmt.Sscanf(pair, "%02x", &b)` with the error ignored: both digits
hex gives the byte, a single leading hex digit gives that digit, a leading
non-hex digit leaves the byte at its zero value. -/
def sscanfHexPair (a b : Nat) : Nat :=
  match hexDigitVal a with
  | none => 0
  | some x =>
    match hexDigitVal b with
    | none => x
    | some y => 16 * x + y

/-- The hash-decoding loop of `part_006:50-54`.  Slicing
`entry.Hash[i*2 : i*2+2]` panics (modelled `.error`) when the hash has fewer
than 40 characters; the `getD` defaults are unreachable under the guard. -/
def sscanfDecode20 (hash : Bytes) : Except Unit Bytes :=
  if hash.length < 40 then .error ()
  else .ok ((List.range 20).map (fun i =>
    sscanfHexPair (hash.getD (2 * i) 0) (hash.getD (2 * i + 1) 0)))

def serializeEntriesSorted : List TreeEntry → Except Unit Bytes
  | [] => .ok []
  | e :: rest =>
    match sscanfDecode20 e.hash with
    | .error u => .error u
    | .ok hb =>
      match serializeEntriesSorted rest with
      | .error u => .error u
      | .ok bs => .ok (e.mode ++ 32 :: (e.name ++ 0 :: (hb ++ bs)))

/-- `Tree.Serialize` (`part_006:38-59`): sort by name, then serialize each
entry as mode, space, name, NUL, twenty decoded hash bytes.  Go's
`sort.Slice` is unstable; the insertion sort here agrees with it whenever
entry names are unique (the case the theorems assume), because sorting by a
strict key is order-determined. -/
def part006Serialize (t : Tree) : Except Unit Bytes :=
  serializeEntriesSorted (List.insertionSort NameLe t.entries)

theorem eq_of_perm_of_pairwise {α : Type} {R : α → α → Prop}
    (hasy : ∀ a b, R a b → R b a → False) :
    ∀ l₁ l₂ : List α, l₁.Perm l₂ → l₁.Pairwise R → l₂.Pairwise R → l₁ = l₂ := by
  intro l₁
  induction l₁ with
  | nil =>
    intro l₂ hp _ _
    exact (List.Perm.nil_eq hp).symm ▸ rfl
  | cons a t₁ ih =>
    intro l₂ hp h₁ h₂
    cases l₂ with
    | nil => exact absurd hp.symm (by simp)
    | cons b t₂ =>
      by_cases hab : a = b
      · subst hab
        rw [ih t₂ hp.cons_inv (List.pairwise_cons.mp h₁).2 (List.pairwise_cons.mp h₂).2]
      · exfalso
        have ha2 : a ∈ b :: t₂ := hp.mem_iff.mp (by simp)
        have hat2 : a ∈ t₂ := by
          rcases List.mem_cons.mp ha2 with h | h
          · exact absurd h hab
          · exact h
        have hb1 : b ∈ a :: t₁ := hp.mem_iff.mpr (by simp)
        have hbt1 : b ∈ t₁ := by
          rcases List.mem_cons.mp hb1 with h | h
          · exact absurd h.symm hab
          · exact h
        exact hasy a b ((List.pairwise_cons.mp h₁).1 b hbt1)
          ((List.pairwise_cons.mp h₂).1 a hat2)

theorem sorted_strict_of_nodup (l : List TreeEntry)
    (hs : l.Pairwise NameLe) (hn : (l.map TreeEntry.name).Nodup) :
    l.Pairwise (fun a b => lexLt a.name b.name = true) := by
  have hn' : l.Pairwise (fun a b => a.name ≠ b.name) := List.pairwise_map.mp hn
  exact (hs.and hn').imp (fun {a b} h => (lexLt_iff a.name b.name).mpr ⟨h.1, h.2⟩)

theorem serializeEntriesSorted_ok : ∀ l : List TreeEntry,
    (∀ e ∈ l, 40 ≤ e.hash.length) → ∃ bs, serializeEntriesSorted l = .ok bs := by
  intro l
  induction l with
  | nil => exact fun _ => ⟨[], rfl⟩
  | cons e rest ih =>
    intro hall
    obtain ⟨bs, hbs⟩ := ih (fun x hx => hall x (by simp [hx]))
    have h40 : ¬ e.hash.length < 40 := by
      have := hall e (by simp)
      omega
    simp only [serializeEntriesSorted, sscanfDecode20, h40, if_false, hbs]
    exact ⟨_, rfl⟩

/-- Claim C2 (tree serialization is order-canonical): two trees holding the
same entries (unique by name, 40-character hashes) in different insertion
orders produce identical serialized bytes under the sorting serializer of
`part_006:38-59`, and the serialized entry sequence is strictly ascending
by name.  (The draft in `tree.go:39-70` does NOT sort — claim C2's property
holds of the sorting variant, which is the more complete one and the one
the spec's canonical-order invariant describes.) -/
theorem part006Serialize_canonical (t₁ t₂ : Tree)
    (hperm : t₁.entries.Perm t₂.entries)
    (hnodup : (t₁.entries.map TreeEntry.name).Nodup)
    (hlen : ∀ e ∈ t₁.entries, 40 ≤ e.hash.length) :
    part006Serialize t₁ = part006Serialize t₂
    ∧ ∃ l bs, l.Perm t₁.entries
        ∧ l.Pairwise (fun a b => lexLt a.name b.name = true)
        ∧ part006Serialize t₁ = .ok bs ∧ serializeEntriesSorted l = .ok bs := by
  have hp₁ := List.perm_insertionSort NameLe t₁.entries
  have hp₂ := List.perm_insertionSort NameLe t₂.entries
  have hs₁ := List.sorted_insertionSort NameLe t₁.entries
  have hs₂ := List.sorted_insertionSort NameLe t₂.entries
  have hnodup₁ : ((List.insertionSort NameLe t₁.entries).map TreeEntry.name).Nodup :=
    ((hp₁.map TreeEntry.name).symm).nodup hnodup
  have hnodup₂ : ((List.insertionSort NameLe t₂.entries).map TreeEntry.name).Nodup := by
    refine ((hp₂.map TreeEntry.name).symm).nodup ?_
    exact ((hperm.map TreeEntry.name)).nodup hnodup
  have hstrict₁ := sorted_strict_of_nodup _ hs₁ hnodup₁
  have hstrict₂ := sorted_strict_of_nodup _ hs₂ hnodup₂
  have hperm12 : (List.insertionSort NameLe t₁.entries).Perm
      (List.insertionSort NameLe t₂.entries) :=
    hp₁.trans (hperm.trans hp₂.symm)
  have heq : List.insertionSort NameLe t₁.entries = List.insertionSort NameLe t₂.entries :=
    eq_of_perm_of_pairwise
      (fun a b hab hba => lexLt_asymm a.name b.name hab hba)
      _ _ hperm12 hstrict₁ hstrict₂
  obtain ⟨bs, hbs⟩ := serializeEntriesSorted_ok (List.insertionSort NameLe t₁.entries)
    (fun e he => hlen e (hp₁.mem_iff.mp he))
  refine ⟨?_, List.insertionSort NameLe t₁.entries, bs, hp₁, hstrict₁, hbs, hbs⟩
  show serializeEntriesSorted (List.insertionSort NameLe t₁.entries)
    = serializeEntriesSorted (List.insertionSort NameLe t₂.entries)
  rw [heq]

/-- Witness for C2 at concrete inputs: the two-entry trees `[b, a]` and
`[a, b]` (same entries, swapped insertion order) serialize identically and
in strictly ascending name order. -/
theorem part006Serialize_canonical_witness :
    part006Serialize ⟨[⟨mode100644, [98], List.replicate 40 48, blobKind⟩,
        ⟨mode100644, [97], List.replicate 40 48, blobKind⟩]⟩
      = part006Serialize ⟨[⟨mode100644, [97], List.replicate 40 48, blobKind⟩,
        ⟨mode100644, [98], List.replicate 40 48, blobKind⟩]⟩
    ∧ ∃ l bs, l.Perm [⟨mode100644, [98], List.replicate 40 48, blobKind⟩,
          ⟨mode100644, [97], List.replicate 40 48, blobKind⟩]
        ∧ l.Pairwise (fun a b : TreeEntry => lexLt a.name b.name = true)
        ∧ part006Serialize ⟨[⟨mode100644, [98], List.replicate 40 48, blobKind⟩,
            ⟨mode100644, [97], List.replicate 40 48, blobKind⟩]⟩ = .ok bs
        ∧ serializeEntriesSorted l = .ok bs :=
  part006Serialize_canonical
    ⟨[⟨mode100644, [98], List.replicate 40 48, blobKind⟩,
      ⟨mode100644, [97], List.replicate 40 48, blobKind⟩]⟩
    ⟨[⟨mode100644, [97], List.replicate 40 48, blobKind⟩,
      ⟨mode100644, [98], List.replicate 40 48, blobKind⟩]⟩
    (by decide) (by decide) (by decide)

/-- Claim C9, amended: `ReadObject` does fail loudly — a missing file is
`notFound`, a stream without a null byte is `noNullTerminator`, a header
without a space is `badHeader` — but `ParseTree` never propagates an error:
its Go signature returns `(tree, nil)` on every input, silently dropping a
malformed suffix. -/
theorem ReadObject_fails_loudly :
    (∀ s h, 4 ≤ h.length → storeLookup s h = none → ReadObject s h = .error .notFound)
    ∧ (∀ s h d, 4 ≤ h.length → storeLookup s h = some d → (0 : Nat) ∉ d →
        ReadObject s h = .error .noNullTerminator)
    ∧ (∀ s h d i, 4 ≤ h.length → storeLookup s h = some d → indexOfByte 0 d = some i →
        32 ∉ d.take i → ReadObject s h = .error .badHeader)
    ∧ (∀ c, (ParseTree c).2 = none) := by
  refine ⟨?_, ?_, ?_, fun c => rfl⟩
  · intro s h hlen hnone
    unfold ReadObject
    rw [if_neg (by omega)]
    simp only [hnone]
  · intro s h d hlen hsome h0
    unfold ReadObject
    rw [if_neg (by omega)]
    simp only [hsome, indexOfByte_eq_none 0 d h0]
  · intro s h d i hlen hsome hidx h32
    unfold ReadObject
    rw [if_neg (by omega)]
    have hsp : splitN2 32 (d.take i) = none := by
      unfold splitN2
      rw [indexOfByte_eq_none 32 _ h32]
    simp only [hsome, hidx, hsp]

/-- Witness for the amended C9 at concrete inputs: a digest with no backing
entry, a stored stream with no null byte, and a stored stream whose header
part has no space. -/
theorem ReadObject_fails_loudly_witness :
    ReadObject [] [48, 48, 48, 48] = .error .notFound
    ∧ ReadObject [([48, 48, 48, 48], [1, 2, 3])] [48, 48, 48, 48]
        = .error .noNullTerminator
    ∧ ReadObject [([48, 48, 48, 48], [1, 0, 2])] [48, 48, 48, 48]
        = .error .badHeader :=
  ⟨ReadObject_fails_loudly.1 [] [48, 48, 48, 48] (by decide) rfl,
   ReadObject_fails_loudly.2.1 [([48, 48, 48, 48], [1, 2, 3])] [48, 48, 48, 48]
     [1, 2, 3] (by decide) rfl (by decide),
   ReadObject_fails_loudly.2.2.1 [([48, 48, 48, 48], [1, 0, 2])] [48, 48, 48, 48]
     [1, 0, 2] 1 (by decide) rfl (by decide) (by decide)⟩

/-- Counterexample for claim C9 as stated: a tree encoding consisting of one
well-formed entry followed by the malformed bytes `"junk"` parses to a
one-entry tree with a nil error — the malformed tail is silently dropped,
not propagated as an error. -/
theorem ParseTree_silent_truncation :
    ParseTree (chars ['1', '0', '0', '6', '4', '4', ' ', 'a']
        ++ 0 :: (List.replicate 20 170 ++ chars ['j', 'u', 'n', 'k']))
      = (⟨[⟨mode100644, [97], List.replicate 40 97, blobKind⟩]⟩, none) := by
  decide

/-! ## Commits (`part_004`, the most complete draft of `commit.go`)

`part_004` differs from `internal/objects/commit.go` in three ways, each a
refinement: `Serialize` stamps `c.Timestamp` rather than calling
`time.Now()` again, writes `c.Committer` on the committer line rather than
repeating `c.Author`, and does not append an extra newline after the
message; `parsePersonWithTimestamp` finds the final `>` of the e-mail
rather than unconditionally stripping the last two whitespace fields.
The Go `time.Time` field is modelled by the two quantities the code
extracts from it: `Unix()` seconds and the `Zone()` offset in seconds. -/

structure Commit where
  tree : Bytes
  parents : List Bytes
  author : Bytes
  committer : Bytes
  message : Bytes
  tsUnix : Int
  tzOffsetSec : Int
  deriving DecidableEq

def treeWord : Bytes := chars ['t', 'r', 'e', 'e']

def parentWord : Bytes := chars ['p', 'a', 'r', 'e', 'n', 't']

def authorWord : Bytes := chars ['a', 'u', 't', 'h', 'o', 'r']

def committerWord : Bytes := chars ['c', 'o', 'm', 'm', 'i', 't', 't', 'e', 'r']

/-- `fmt.Sprintf("%d", i)` for an `int64`. -/
def intDecimal (i : Int) : Bytes :=
  if i < 0 then 45 :: natDigits i.natAbs else natDigits i.toNat

/-- `%02d`: decimal, left-padded with `0` to at least two digits. -/
def pad2 (n : Nat) : Bytes := if n < 10 then 48 :: natDigits n else natDigits n

/-- The timezone token of `part_004:41-46`: sign, two-digit hours,
two-digit minutes. -/
def timezoneBytes (offset : Int) : Bytes :=
  if offset < 0 then
    45 :: (pad2 ((-offset).toNat / 3600) ++ pad2 (((-offset).toNat % 3600) / 60))
  else
    43 :: (pad2 (offset.toNat / 3600) ++ pad2 ((offset.toNat % 3600) / 60))

def parentLines : List Bytes → Bytes
  | [] => []
  | p :: r => (parentWord ++ 32 :: (p ++ [10])) ++ parentLines r

/-- An `author`/`committer` header line (`part_004:48-49`). -/
def personLine (word who : Bytes) (ts off : Int) : Bytes :=
  word ++ 32 :: (who ++ 32 :: (intDecimal ts ++ 32 :: (timezoneBytes off ++ [10])))

/-- `Commit.Serialize` (`part_004:30-54`): tree line, parent lines in order,
author and committer lines sharing one timestamp, a blank line, then the
message verbatim (no trailing newline). -/
def commitSerialize (c : Commit) : Bytes :=
  (treeWord ++ 32 :: (c.tree ++ [10]))
  ++ parentLines c.parents
  ++ personLine authorWord c.author c.tsUnix c.tzOffsetSec
  ++ personLine committerWord c.committer c.tsUnix c.tzOffsetSec
  ++ 10 :: c.message

/-- `strings.Split(s, "\n")` (single-byte separator). -/
def splitOnByte (sep : Nat) : Bytes → List Bytes
  | [] => [[]]
  | b :: rest =>
    match splitOnByte sep rest with
    | [] => []
    | h :: t => if b = sep then [] :: h :: t else (b :: h) :: t

/-- `strings.Join(l, sep)` (single-byte separator). -/
def joinSep (sep : Nat) : List Bytes → Bytes
  | [] => []
  | [x] => x
  | x :: y :: r => x ++ sep :: joinSep sep (y :: r)

/-- Go's `asciiSpace` table: `'\t'`, `'\n'`, `'\v'`, `'\f'`, `'\r'`, `' '`.
On a string whose bytes are all below `utf8.RuneSelf` (`0x80`),
`strings.Fields` takes its ASCII fast path and splits exactly at these six
bytes; on such strings this is also exactly `unicode.IsSpace` per rune,
since every byte is its own rune.  Multi-byte space runes (U+0085, U+00A0,
…) make `strings.Fields` split where a byte-level model does not, so
`goFields` below models `strings.Fields` only on all-ASCII strings; the
round-trip theorem keeps itself inside that domain by requiring (in
`WellFormedIdentity`) that an identity without `>` is all-ASCII — the rest
of the line `parsePersonWithTimestamp` sees is decimal digits, `+`/`-` and
spaces, hence ASCII already. -/
def isGoSpace (b : Nat) : Bool :=
  b = 32 || b = 9 || b = 10 || b = 11 || b = 12 || b = 13

def goFieldsAux : Bytes → Bytes → List Bytes
  | [], acc => if acc = [] then [] else [acc]
  | b :: r, acc =>
    if isGoSpace b then
      if acc = [] then goFieldsAux r [] else acc :: goFieldsAux r []
    else goFieldsAux r (acc ++ [b])

/-- `strings.Fields` on an all-ASCII string: maximal runs of bytes outside
the `asciiSpace` table (see `isGoSpace`). -/
def goFields (s : Bytes) : List Bytes := goFieldsAux s []

/-- `strings.LastIndex(line, ">")` for the single-byte pattern. -/
def lastIndexOf (b : Nat) : Bytes → Option Nat
  | [] => none
  | x :: r =>
    match lastIndexOf b r with
    | some i => some (i + 1)
    | none => if x = b then some 0 else none

/-- `parsePersonWithTimestamp` (`part_004:93-107`).  `strings.LastIndex`
searches bytes, so the `>` branch is faithful for arbitrary bytes; the
fallback branch runs `strings.Fields`, modelled by `goFields` for all-ASCII
lines (see `isGoSpace`). -/
def parsePersonWithTimestamp (line : Bytes) : Bytes :=
  match lastIndexOf 62 line with
  | none =>
    if 2 < (goFields line).length then
      joinSep 32 ((goFields line).take ((goFields line).length - 2))
    else line
  | some i => line.take (i + 1)

/-- The header-scanning loop of `ParseCommit` (`part_004:63-88`): dispatch
on the first word of each line until the first blank line; everything after
the blank line, rejoined with newlines, is the message. -/
def parseCommitLoop : List Bytes → Commit → Commit
  | [], c => c
  | l :: rest, c =>
    if l = [] then { c with message := joinSep 10 rest }
    else
      match splitN2 32 l with
      | none => parseCommitLoop rest c
      | some (key, value) =>
        if key = treeWord then parseCommitLoop rest { c with tree := value }
        else if key = parentWord then
          parseCommitLoop rest { c with parents := c.parents ++ [value] }
        else if key = authorWord then
          parseCommitLoop rest { c with author := parsePersonWithTimestamp value }
        else if key = committerWord then
          parseCommitLoop rest { c with committer := parsePersonWithTimestamp value }
        else parseCommitLoop rest c

/-- `ParseCommit` (`part_004:56-91`).  The Go function returns a commit and
an always-nil error; the zero `time.Time` of the parsed commit is modelled
by zero timestamp fields. -/
def ParseCommit (content : Bytes) : Commit :=
  parseCommitLoop (splitOnByte 10 content) ⟨[], [], [], [], [], 0, 0⟩

theorem splitOnByte_ne_nil (sep : Nat) : ∀ l : Bytes, splitOnByte sep l ≠ [] := by
  intro l
  induction l with
  | nil => simp [splitOnByte]
  | cons b r ih =>
    simp only [splitOnByte]
    cases h : splitOnByte sep r with
    | nil => exact absurd h ih
    | cons x t => by_cases hb : b = sep <;> simp [hb]

theorem splitOnByte_cons_sep (sep : Nat) (y : Bytes) :
    splitOnByte sep (sep :: y) = [] :: splitOnByte sep y := by
  simp only [splitOnByte]
  cases h : splitOnByte sep y with
  | nil => exact absurd h (splitOnByte_ne_nil sep y)
  | cons x t => simp

theorem splitOnByte_append (sep : Nat) (x y : Bytes) (hx : sep ∉ x) :
    splitOnByte sep (x ++ sep :: y) = x :: splitOnByte sep y := by
  induction x with
  | nil => simpa using splitOnByte_cons_sep sep y
  | cons b r ih =>
    have hb : b ≠ sep := fun h => hx (h ▸ List.mem_cons_self b r)
    have ih2 := ih (fun h => hx (List.mem_cons_of_mem b h))
    show splitOnByte sep (b :: (r ++ sep :: y)) = (b :: r) :: splitOnByte sep y
    simp only [splitOnByte, ih2]
    simp [hb]

theorem joinSep_split (sep : Nat) : ∀ l : Bytes, joinSep sep (splitOnByte sep l) = l := by
  intro l
  induction l with
  | nil => rfl
  | cons b r ih =>
    simp only [splitOnByte]
    cases h : splitOnByte sep r with
    | nil => exact absurd h (splitOnByte_ne_nil sep r)
    | cons x t =>
      rw [h] at ih
      by_cases hb : b = sep
      · subst hb
        simp only [if_pos rfl]
        show [] ++ b :: joinSep b (x :: t) = b :: r
        rw [ih]
        rfl
      · simp only [if_neg hb]
        cases t with
        | nil =>
          show b :: x = b :: r
          have hx : x = r := ih
          rw [hx]
        | cons z zs =>
          show (b :: x) ++ sep :: joinSep sep (z :: zs) = b :: r
          have hx : x ++ sep :: joinSep sep (z :: zs) = r := ih
          rw [← hx]
          rfl

theorem pad2_mem (n : Nat) : ∀ b ∈ pad2 n, 48 ≤ b ∧ b ≤ 57 := by
  intro b hb
  unfold pad2 at hb
  by_cases h : n < 10
  · rw [if_pos h] at hb
    rcases List.mem_cons.mp hb with h' | h'
    · omega
    · exact natDigits_mem n b h'
  · rw [if_neg h] at hb
    exact natDigits_mem n b hb

theorem intDecimal_mem (i : Int) : ∀ b ∈ intDecimal i, b = 45 ∨ (48 ≤ b ∧ b ≤ 57) := by
  intro b hb
  unfold intDecimal at hb
  by_cases h : i < 0
  · rw [if_pos h] at hb
    rcases List.mem_cons.mp hb with h' | h'
    · exact Or.inl h'
    · exact Or.inr (natDigits_mem _ b h')
  · rw [if_neg h] at hb
    exact Or.inr (natDigits_mem _ b hb)

theorem intDecimal_ne_nil (i : Int) : intDecimal i ≠ [] := by
  unfold intDecimal
  by_cases h : i < 0
  · simp [h]
  · simp [h, natDigits_ne_nil]

theorem timezoneBytes_mem (off : Int) :
    ∀ b ∈ timezoneBytes off, b = 43 ∨ b = 45 ∨ (48 ≤ b ∧ b ≤ 57) := by
  intro b hb
  unfold timezoneBytes at hb
  by_cases h : off < 0
  · rw [if_pos h] at hb
    rcases List.mem_cons.mp hb with h' | h'
    · omega
    · rcases List.mem_append.mp h' with h'' | h'' <;>
        exact Or.inr (Or.inr (pad2_mem _ b h''))
  · rw [if_neg h] at hb
    rcases List.mem_cons.mp hb with h' | h'
    · omega
    · rcases List.mem_append.mp h' with h'' | h'' <;>
        exact Or.inr (Or.inr (pad2_mem _ b h''))

theorem timezoneBytes_ne_nil (off : Int) : timezoneBytes off ≠ [] := by
  unfold timezoneBytes
  by_cases h : off < 0 <;> simp [h]

theorem goFieldsAux_word : ∀ w rest acc : Bytes, (∀ b ∈ w, isGoSpace b = false) →
    goFieldsAux (w ++ rest) acc = goFieldsAux rest (acc ++ w) := by
  intro w
  induction w with
  | nil => intro rest acc _; simp
  | cons b r ih =>
    intro rest acc hw
    have hb : isGoSpace b = false := hw b (by simp)
    show goFieldsAux (b :: (r ++ rest)) acc = goFieldsAux rest (acc ++ b :: r)
    simp only [goFieldsAux, hb, Bool.false_eq_true, if_false]
    rw [ih rest (acc ++ [b]) (fun x hx => hw x (by simp [hx]))]
    simp

theorem goFields_words : ∀ ws : List Bytes,
    (∀ w ∈ ws, w ≠ [] ∧ ∀ b ∈ w, isGoSpace b = false) →
    goFields (joinSep 32 ws) = ws := by
  intro ws
  induction ws with
  | nil => intro _; rfl
  | cons w ws ih =>
    intro hws
    obtain ⟨hw, hwb⟩ := hws w (by simp)
    cases ws with
    | nil =>
      show goFieldsAux (joinSep 32 [w]) [] = [w]
      have hj : joinSep 32 [w] = w := rfl
      rw [hj]
      calc goFieldsAux w [] = goFieldsAux (w ++ []) [] := by simp
        _ = goFieldsAux [] ([] ++ w) := goFieldsAux_word w [] [] hwb
        _ = [w] := by simp [goFieldsAux, hw]
    | cons w₂ ws₂ =>
      show goFieldsAux (w ++ 32 :: joinSep 32 (w₂ :: ws₂)) [] = w :: w₂ :: ws₂
      rw [goFieldsAux_word w _ [] hwb]
      show goFieldsAux (32 :: joinSep 32 (w₂ :: ws₂)) ([] ++ w) = w :: w₂ :: ws₂
      have hnil : ([] : Bytes) ++ w = w := by simp
      rw [hnil]
      simp only [goFieldsAux, show isGoSpace 32 = true from rfl, if_true, if_neg hw]
      have ih2 : goFieldsAux (joinSep 32 (w₂ :: ws₂)) [] = w₂ :: ws₂ :=
        ih (fun x hx => hws x (by simp [hx]))
      rw [ih2]

theorem lastIndexOf_eq_none (b : Nat) : ∀ l : Bytes, b ∉ l → lastIndexOf b l = none := by
  intro l
  induction l with
  | nil => intro _; rfl
  | cons x r ih =>
    intro hl
    have hx : x ≠ b := fun h => hl (h ▸ List.mem_cons_self x r)
    simp only [lastIndexOf, ih (fun h => hl (List.mem_cons_of_mem x h)), hx, if_false]

theorem lastIndexOf_append_last (b : Nat) : ∀ x t : Bytes, b ∉ t →
    lastIndexOf b (x ++ b :: t) = some x.length := by
  intro x
  induction x with
  | nil =>
    intro t ht
    show lastIndexOf b (b :: t) = some 0
    simp [lastIndexOf, lastIndexOf_eq_none b t ht]
  | cons a r ih =>
    intro t ht
    show lastIndexOf b (a :: (r ++ b :: t)) = some (r.length + 1)
    simp only [lastIndexOf, ih t ht]

theorem joinSep_append_two (sep : Nat) : ∀ ws : List Bytes, ws ≠ [] → ∀ d t : Bytes,
    joinSep sep ws ++ sep :: (d ++ sep :: t) = joinSep sep (ws ++ [d, t]) := by
  intro ws
  induction ws with
  | nil => intro h; exact absurd rfl h
  | cons w ws ih =>
    intro _ d t
    cases ws with
    | nil => rfl
    | cons w₂ ws₂ =>
      show (w ++ sep :: joinSep sep (w₂ :: ws₂)) ++ sep :: (d ++ sep :: t)
        = w ++ sep :: joinSep sep ((w₂ :: ws₂) ++ [d, t])
      rw [← ih (by simp) d t]
      simp

theorem mem_joinSep (sep : Nat) : ∀ ws : List Bytes, ∀ b : Nat,
    b ∈ joinSep sep ws → b = sep ∨ ∃ w ∈ ws, b ∈ w := by
  intro ws
  induction ws with
  | nil => intro b hb; simp [joinSep] at hb
  | cons w ws ih =>
    intro b hb
    cases ws with
    | nil => exact Or.inr ⟨w, by simp, hb⟩
    | cons w₂ ws₂ =>
      have hb2 : b ∈ w ++ sep :: joinSep sep (w₂ :: ws₂) := hb
      rcases List.mem_append.mp hb2 with h | h
      · exact Or.inr ⟨w, by simp, h⟩
      · rcases List.mem_cons.mp h with h | h
        · exact Or.inl h
        · rcases ih b h with h' | ⟨w', hw', hbw⟩
          · exact Or.inl h'
          · exact Or.inr ⟨w', List.mem_cons_of_mem w hw', hbw⟩

theorem mem_joinSep_of (sep : Nat) : ∀ ws : List Bytes, ∀ w ∈ ws, ∀ b ∈ w,
    b ∈ joinSep sep ws := by
  intro ws
  induction ws with
  | nil => intro w hw; simp at hw
  | cons x xs ih =>
    intro w hw b hb
    cases xs with
    | nil =>
      rcases List.mem_cons.mp hw with h | h
      · subst h; exact hb
      · simp at h
    | cons y ys =>
      show b ∈ x ++ sep :: joinSep sep (y :: ys)
      rcases List.mem_cons.mp hw with h | h
      · subst h
        exact List.mem_append.mpr (Or.inl hb)
      · exact List.mem_append.mpr (Or.inr (List.mem_cons_of_mem sep (ih w h b hb)))

theorem isGoSpace_eq_false {b : Nat}
    (h : ¬ (b = 32 ∨ b = 9 ∨ b = 10 ∨ b = 11 ∨ b = 12 ∨ b = 13)) :
    isGoSpace b = false := by
  unfold isGoSpace
  simp only [Bool.or_eq_false_iff, decide_eq_false_iff_not]
  omega

theorem parsePerson_roundtrip (a : Bytes) (ts off : Int)
    (ha : a.getLast? = some 62
        ∨ ((62 : Nat) ∉ a ∧ ∃ ws, ws ≠ [] ∧
            (∀ w ∈ ws, w ≠ [] ∧ ∀ b ∈ w, isGoSpace b = false) ∧ a = joinSep 32 ws)) :
    parsePersonWithTimestamp (a ++ 32 :: (intDecimal ts ++ 32 :: timezoneBytes off)) = a := by
  have htail62 : (62 : Nat) ∉ (32 : Nat) :: (intDecimal ts ++ 32 :: timezoneBytes off) := by
    intro hmem
    rcases List.mem_cons.mp hmem with h | h
    · omega
    · rcases List.mem_append.mp h with h | h
      · rcases intDecimal_mem ts _ h with h | h <;> omega
      · rcases List.mem_cons.mp h with h | h
        · omega
        · rcases timezoneBytes_mem off _ h with h | h | h <;> omega
  rcases ha with hlast | ⟨h62, ws, hwsne, hwords, heq⟩
  · obtain ⟨a', ha'⟩ := List.getLast?_eq_some_iff.mp hlast
    subst ha'
    unfold parsePersonWithTimestamp
    have harr : (a' ++ [62]) ++ 32 :: (intDecimal ts ++ 32 :: timezoneBytes off)
        = a' ++ 62 :: (32 :: (intDecimal ts ++ 32 :: timezoneBytes off)) := by simp
    rw [harr]
    have hlast2 := lastIndexOf_append_last 62 a'
      (32 :: (intDecimal ts ++ 32 :: timezoneBytes off)) htail62
    simp only [hlast2]
    rw [show a' ++ 62 :: (32 :: (intDecimal ts ++ 32 :: timezoneBytes off))
        = (a' ++ [62]) ++ 32 :: (intDecimal ts ++ 32 :: timezoneBytes off) by simp]
    exact List.take_left' (by simp)
  · subst heq
    have hline := joinSep_append_two 32 ws hwsne (intDecimal ts) (timezoneBytes off)
    unfold parsePersonWithTimestamp
    rw [hline]
    have h62' : (62 : Nat) ∉ joinSep 32 (ws ++ [intDecimal ts, timezoneBytes off]) := by
      intro hmem
      rcases mem_joinSep 32 _ 62 hmem with h | ⟨w, hw, hbw⟩
      · omega
      · rcases List.mem_append.mp hw with h | h
        · exact h62 (mem_joinSep_of 32 ws w h 62 hbw)
        · rcases List.mem_cons.mp h with h | h
          · subst h
            rcases intDecimal_mem ts _ hbw with h | h <;> omega
          · rcases List.mem_cons.mp h with h | h
            · subst h
              rcases timezoneBytes_mem off _ hbw with h | h | h <;> omega
            · simp at h
    have hfields : goFields (joinSep 32 (ws ++ [intDecimal ts, timezoneBytes off]))
        = ws ++ [intDecimal ts, timezoneBytes off] := by
      apply goFields_words
      intro w hw
      rcases List.mem_append.mp hw with h | h
      · exact hwords w h
      · rcases List.mem_cons.mp h with h | h
        · subst h
          refine ⟨intDecimal_ne_nil ts, ?_⟩
          intro b hb
          rcases intDecimal_mem ts b hb with h | h <;> exact isGoSpace_eq_false (by omega)
        · rcases List.mem_cons.mp h with h | h
          · subst h
            refine ⟨timezoneBytes_ne_nil off, ?_⟩
            intro b hb
            rcases timezoneBytes_mem off b hb with h | h | h <;>
              exact isGoSpace_eq_false (by omega)
          · simp at h
    simp only [lastIndexOf_eq_none 62 _ h62', hfields]
    have hlen : (ws ++ [intDecimal ts, timezoneBytes off]).length = ws.length + 2 := by
      simp
    have hpos : 0 < ws.length := List.length_pos.mpr hwsne
    rw [if_pos (by rw [hlen]; omega)]
    rw [hlen]
    have hsub : ws.length + 2 - 2 = ws.length := by omega
    rw [hsub, List.take_left ws [intDecimal ts, timezoneBytes off]]

theorem loop_blank (rest : List Bytes) (c : Commit) :
    parseCommitLoop ([] :: rest) c = { c with message := joinSep 10 rest } := by
  simp [parseCommitLoop]

theorem loop_tree (v : Bytes) (rest : List Bytes) (c : Commit) :
    parseCommitLoop ((treeWord ++ 32 :: v) :: rest) c
      = parseCommitLoop rest { c with tree := v } := by
  simp only [parseCommitLoop]
  rw [if_neg (by simp)]
  simp only [splitN2_append 32 treeWord v (by decide)]
  simp

theorem loop_parent (v : Bytes) (rest : List Bytes) (c : Commit) :
    parseCommitLoop ((parentWord ++ 32 :: v) :: rest) c
      = parseCommitLoop rest { c with parents := c.parents ++ [v] } := by
  simp only [parseCommitLoop]
  rw [if_neg (by simp)]
  simp only [splitN2_append 32 parentWord v (by decide)]
  rw [if_neg (show ¬ parentWord = treeWord from by decide)]
  simp

theorem loop_author (v : Bytes) (rest : List Bytes) (c : Commit) :
    parseCommitLoop ((authorWord ++ 32 :: v) :: rest) c
      = parseCommitLoop rest { c with author := parsePersonWithTimestamp v } := by
  simp only [parseCommitLoop]
  rw [if_neg (by simp)]
  simp only [splitN2_append 32 authorWord v (by decide)]
  rw [if_neg (show ¬ authorWord = treeWord from by decide),
    if_neg (show ¬ authorWord = parentWord from by decide)]
  simp

theorem loop_committer (v : Bytes) (rest : List Bytes) (c : Commit) :
    parseCommitLoop ((committerWord ++ 32 :: v) :: rest) c
      = parseCommitLoop rest { c with committer := parsePersonWithTimestamp v } := by
  simp only [parseCommitLoop]
  rw [if_neg (by simp)]
  simp only [splitN2_append 32 committerWord v (by decide)]
  rw [if_neg (show ¬ committerWord = treeWord from by decide),
    if_neg (show ¬ committerWord = parentWord from by decide),
    if_neg (show ¬ committerWord = authorWord from by decide)]
  simp

theorem loop_parents_all : ∀ ps : List Bytes, ∀ (rest : List Bytes) (c : Commit),
    parseCommitLoop (ps.map (fun p => parentWord ++ 32 :: p) ++ rest) c
      = parseCommitLoop rest { c with parents := c.parents ++ ps } := by
  intro ps
  induction ps with
  | nil => intro rest c; simp
  | cons p ps ih =>
    intro rest c
    show parseCommitLoop ((parentWord ++ 32 :: p)
      :: (ps.map (fun p => parentWord ++ 32 :: p) ++ rest)) c = _
    rw [loop_parent, ih]
    congr 1
    simp

theorem no10_header (word v : Bytes) (hw : (10 : Nat) ∉ word) (hv : (10 : Nat) ∉ v) :
    (10 : Nat) ∉ word ++ 32 :: v := by
  intro h
  rcases List.mem_append.mp h with h | h
  · exact hw h
  · rcases List.mem_cons.mp h with h | h
    · omega
    · exact hv h

theorem no10_person_payload (who : Bytes) (hwho : (10 : Nat) ∉ who) (ts off : Int) :
    (10 : Nat) ∉ who ++ 32 :: (intDecimal ts ++ 32 :: timezoneBytes off) := by
  intro h
  rcases List.mem_append.mp h with h | h
  · exact hwho h
  · rcases List.mem_cons.mp h with h | h
    · omega
    · rcases List.mem_append.mp h with h | h
      · rcases intDecimal_mem ts _ h with h | h <;> omega
      · rcases List.mem_cons.mp h with h | h
        · omega
        · rcases timezoneBytes_mem off _ h with h | h | h <;> omega

theorem split_parentLines (ps : List Bytes) (hps : ∀ p ∈ ps, (10 : Nat) ∉ p) (R : Bytes) :
    splitOnByte 10 (parentLines ps ++ R)
      = ps.map (fun p => parentWord ++ 32 :: p) ++ splitOnByte 10 R := by
  induction ps with
  | nil => simp [parentLines]
  | cons p ps ih =>
    show splitOnByte 10 (((parentWord ++ 32 :: (p ++ [10])) ++ parentLines ps) ++ R) = _
    have harr : ((parentWord ++ 32 :: (p ++ [10])) ++ parentLines ps) ++ R
        = (parentWord ++ 32 :: p) ++ 10 :: (parentLines ps ++ R) := by simp
    rw [harr, splitOnByte_append 10 _ _
      (no10_header parentWord p (by decide) (hps p (by simp)))]
    rw [ih (fun x hx => hps x (by simp [hx]))]
    rfl

theorem splitOnByte_commitSerialize (c : Commit)
    (htree : (10 : Nat) ∉ c.tree)
    (hpar : ∀ p ∈ c.parents, (10 : Nat) ∉ p)
    (hauth : (10 : Nat) ∉ c.author) (hcomm : (10 : Nat) ∉ c.committer) :
    splitOnByte 10 (commitSerialize c)
      = (treeWord ++ 32 :: c.tree)
        :: (c.parents.map (fun p => parentWord ++ 32 :: p)
          ++ (authorWord ++ 32 :: (c.author ++ 32 :: (intDecimal c.tsUnix
                ++ 32 :: timezoneBytes c.tzOffsetSec)))
          :: (committerWord ++ 32 :: (c.committer ++ 32 :: (intDecimal c.tsUnix
                ++ 32 :: timezoneBytes c.tzOffsetSec)))
          :: [] :: splitOnByte 10 c.message) := by
  have harr : commitSerialize c
      = (treeWord ++ 32 :: c.tree)
        ++ 10 :: (parentLines c.parents
          ++ ((authorWord ++ 32 :: (c.author ++ 32 :: (intDecimal c.tsUnix
                ++ 32 :: timezoneBytes c.tzOffsetSec)))
            ++ 10 :: ((committerWord ++ 32 :: (c.committer ++ 32 :: (intDecimal c.tsUnix
                  ++ 32 :: timezoneBytes c.tzOffsetSec)))
              ++ 10 :: (10 :: c.message)))) := by
    unfold commitSerialize personLine
    simp
  rw [harr, splitOnByte_append 10 _ _ (no10_header treeWord c.tree (by decide) htree)]
  rw [split_parentLines c.parents hpar]
  rw [splitOnByte_append 10 _ _ (no10_header authorWord _ (by decide)
    (no10_person_payload c.author hauth c.tsUnix c.tzOffsetSec))]
  rw [splitOnByte_append 10 _ _ (no10_header committerWord _ (by decide)
    (no10_person_payload c.committer hcomm c.tsUnix c.tzOffsetSec))]
  rw [splitOnByte_cons_sep 10 c.message]

/-- The conditions on an identity string under which the
`parsePersonWithTimestamp` of `part_004` recovers it from a serialized
author/committer line: no newline, and either the identity ends with `>`
(the standard `Name <email>` shape) or it contains no `>`, consists of
ASCII bytes only (so that `goFields` is `strings.Fields` on the line the
parser sees; a multi-byte space rune such as U+0085 or U+00A0 would make
`strings.Fields` split inside what the serializer wrote as one word), and
is a single-space-separated sequence of nonempty whitespace-free words. -/
def WellFormedIdentity (a : Bytes) : Prop :=
  (10 : Nat) ∉ a ∧
  (a.getLast? = some 62
   ∨ ((62 : Nat) ∉ a ∧ (∀ b ∈ a, b < 128) ∧ ∃ ws, ws ≠ [] ∧
       (∀ w ∈ ws, w ≠ [] ∧ ∀ b ∈ w, isGoSpace b = false) ∧ a = joinSep 32 ws))

/-- Claim C3, amended: serializing a commit with `part_004`'s codec (the
most complete draft) and parsing it back recovers the tree, the parents in
order, the message byte-exactly (embedded newlines included), and the
author and committer identities — for identities that are well formed in
the sense of `WellFormedIdentity` (ending in `>`, or `>`-free, all-ASCII
and normally spaced).  The claim as stated, which admits every identity
not ending in two numeric tokens, fails (see the counterexample): an
identity containing `>` other than at its end is cut at the last `>`, and
one with irregular whitespace is re-joined with single spaces. -/
theorem commit_roundtrip (c : Commit)
    (htree : (10 : Nat) ∉ c.tree)
    (hpar : ∀ p ∈ c.parents, (10 : Nat) ∉ p)
    (hauth : WellFormedIdentity c.author)
    (hcomm : WellFormedIdentity c.committer) :
    (ParseCommit (commitSerialize c)).tree = c.tree
    ∧ (ParseCommit (commitSerialize c)).parents = c.parents
    ∧ (ParseCommit (commitSerialize c)).author = c.author
    ∧ (ParseCommit (commitSerialize c)).committer = c.committer
    ∧ (ParseCommit (commitSerialize c)).message = c.message := by
  have hauth2 : c.author.getLast? = some 62
      ∨ ((62 : Nat) ∉ c.author ∧ ∃ ws, ws ≠ [] ∧
          (∀ w ∈ ws, w ≠ [] ∧ ∀ b ∈ w, isGoSpace b = false)
          ∧ c.author = joinSep 32 ws) := by
    rcases hauth.2 with h | ⟨h62, _, hws⟩
    · exact Or.inl h
    · exact Or.inr ⟨h62, hws⟩
  have hcomm2 : c.committer.getLast? = some 62
      ∨ ((62 : Nat) ∉ c.committer ∧ ∃ ws, ws ≠ [] ∧
          (∀ w ∈ ws, w ≠ [] ∧ ∀ b ∈ w, isGoSpace b = false)
          ∧ c.committer = joinSep 32 ws) := by
    rcases hcomm.2 with h | ⟨h62, _, hws⟩
    · exact Or.inl h
    · exact Or.inr ⟨h62, hws⟩
  unfold ParseCommit
  rw [splitOnByte_commitSerialize c htree hpar hauth.1 hcomm.1]
  rw [loop_tree, loop_parents_all, loop_author, loop_committer, loop_blank]
  rw [parsePerson_roundtrip c.author _ _ hauth2,
    parsePerson_roundtrip c.committer _ _ hcomm2]
  rw [joinSep_split 10 c.message]
  simp

/-- Witness for the amended C3 at a concrete commit: author `"Jo <j@x>"`,
one parent, a message with an embedded newline, timestamp 5 in zone
UTC-1. -/
theorem commit_roundtrip_witness :
    (ParseCommit (commitSerialize ⟨[116], [[112]],
        chars ['J', 'o', ' ', '<', 'j', '@', 'x', '>'],
        chars ['J', 'o', ' ', '<', 'j', '@', 'x', '>'],
        chars ['h', 'i', '\n', 'y', 'o'], 5, -3600⟩)).tree = [116]
    ∧ (ParseCommit (commitSerialize ⟨[116], [[112]],
        chars ['J', 'o', ' ', '<', 'j', '@', 'x', '>'],
        chars ['J', 'o', ' ', '<', 'j', '@', 'x', '>'],
        chars ['h', 'i', '\n', 'y', 'o'], 5, -3600⟩)).parents = [[112]]
    ∧ (ParseCommit (commitSerialize ⟨[116], [[112]],
        chars ['J', 'o', ' ', '<', 'j', '@', 'x', '>'],
        chars ['J', 'o', ' ', '<', 'j', '@', 'x', '>'],
        chars ['h', 'i', '\n', 'y', 'o'], 5, -3600⟩)).author
        = chars ['J', 'o', ' ', '<', 'j', '@', 'x', '>']
    ∧ (ParseCommit (commitSerialize ⟨[116], [[112]],
        chars ['J', 'o', ' ', '<', 'j', '@', 'x', '>'],
        chars ['J', 'o', ' ', '<', 'j', '@', 'x', '>'],
        chars ['h', 'i', '\n', 'y', 'o'], 5, -3600⟩)).committer
        = chars ['J', 'o', ' ', '<', 'j', '@', 'x', '>']
    ∧ (ParseCommit (commitSerialize ⟨[116], [[112]],
        chars ['J', 'o', ' ', '<', 'j', '@', 'x', '>'],
        chars ['J', 'o', ' ', '<', 'j', '@', 'x', '>'],
        chars ['h', 'i', '\n', 'y', 'o'], 5, -3600⟩)).message
        = chars ['h', 'i', '\n', 'y', 'o'] :=
  commit_roundtrip ⟨[116], [[112]],
      chars ['J', 'o', ' ', '<', 'j', '@', 'x', '>'],
      chars ['J', 'o', ' ', '<', 'j', '@', 'x', '>'],
      chars ['h', 'i', '\n', 'y', 'o'], 5, -3600⟩
    (by decide)
    (by intro p hp; simp at hp; subst hp; decide)
    ⟨by decide, Or.inl (by decide)⟩
    ⟨by decide, Or.inl (by decide)⟩

/-- Counterexample for claim C3 as stated: the author identity `"a>b"` does
not end in two numeric tokens, yet serializing and parsing does not recover
it — `parsePersonWithTimestamp` cuts the line at the last `>`, yielding
`"a>"`. -/
theorem commit_roundtrip_cex :
    (ParseCommit (commitSerialize ⟨[116], [],
        chars ['a', '>', 'b'], chars ['a', '>', 'b'], [109], 0, 0⟩)).author
      = chars ['a', '>']
    ∧ chars ['a', '>'] ≠ chars ['a', '>', 'b'] := by
  constructor
  · decide
  · decide

/-! ## Packet lines (`push.go:434-476`)

`writePktLine` writes `"0000"` for empty data, otherwise
`fmt.Sprintf("%04x%s", len(data)+4, data)`.  `readPktLine` reads four
length bytes, returns `("", nil)` on `"0000"`, otherwise parses the length
as hex (`strconv.ParseInt(_, 16, 32)`; the inputs arising here are plain
hex digits, so sign prefixes and overflow do not arise) and reads
`length-4` payload bytes.  The reader is modelled on a byte stream,
returning the payload together with the unconsumed remainder. -/

def hexDigitsAux : Nat → Nat → Bytes
  | 0, n => [hexDigitChar n]
  | fuel + 1, n =>
    if n < 16 then [hexDigitChar n] else hexDigitsAux fuel (n / 16) ++ [hexDigitChar (n % 16)]

/-- Lowercase hex digits of `n`, most significant first. -/
def hexDigits (n : Nat) : Bytes := hexDigitsAux n n

theorem hexDigitsAux_congr : ∀ f₁ f₂ n : Nat, n ≤ f₁ → n ≤ f₂ →
    hexDigitsAux f₁ n = hexDigitsAux f₂ n := by
  intro f₁
  induction f₁ using Nat.strong_induction_on with
  | _ f₁ ih =>
    intro f₂ n h₁ h₂
    match f₁, f₂ with
    | 0, f₂ =>
      have hn : n = 0 := by omega
      subst hn
      match f₂ with
      | 0 => rfl
      | f₂ + 1 => simp [hexDigitsAux]
    | f₁ + 1, 0 =>
      have hn : n = 0 := by omega
      subst hn
      simp [hexDigitsAux]
    | f₁ + 1, f₂ + 1 =>
      simp only [hexDigitsAux]
      by_cases hn : n < 16
      · simp [hn]
      · have hds := Nat.div_lt_self (show 0 < n by omega) (show 1 < 16 by omega)
        simp only [hn, if_false]
        rw [ih f₁ (by omega) f₂ (n / 16) (by omega) (by omega)]

theorem hexDigits_eq (n : Nat) :
    hexDigits n = if n < 16 then [hexDigitChar n]
      else hexDigits (n / 16) ++ [hexDigitChar (n % 16)] := by
  by_cases hn : n < 16
  · unfold hexDigits
    match n, hn with
    | 0, _ => simp [hexDigitsAux]
    | n + 1, hn => simp [hexDigitsAux, hn]
  · obtain ⟨m, hm⟩ : ∃ m, n = m + 1 := ⟨n - 1, by omega⟩
    unfold hexDigits
    subst hm
    simp only [hexDigitsAux, hn, if_false]
    congr 1
    have hds := Nat.div_lt_self (show 0 < m + 1 by omega) (show 1 < 16 by omega)
    exact hexDigitsAux_congr m ((m + 1) / 16) ((m + 1) / 16) (by omega) (le_refl _)

/-- `fmt.Sprintf("%04x", n)`: the hex digits, left-padded with `0` to at
least four characters. -/
def hex04 (n : Nat) : Bytes :=
  List.replicate (4 - (hexDigits n).length) 48 ++ hexDigits n

theorem hexDigits_small (n : Nat) (h : n < 16) : hexDigits n = [hexDigitChar n] := by
  rw [hexDigits_eq, if_pos h]

theorem hexDigits_two (n : Nat) (h₁ : 16 ≤ n) (h₂ : n < 256) :
    hexDigits n = [hexDigitChar (n / 16), hexDigitChar (n % 16)] := by
  rw [hexDigits_eq, if_neg (by omega), hexDigits_small (n / 16) (by omega)]
  rfl

theorem hexDigits_three (n : Nat) (h₁ : 256 ≤ n) (h₂ : n < 4096) :
    hexDigits n = [hexDigitChar (n / 256), hexDigitChar (n / 16 % 16),
      hexDigitChar (n % 16)] := by
  rw [hexDigits_eq, if_neg (by omega), hexDigits_two (n / 16) (by omega) (by omega)]
  have e₁ : n / 16 / 16 = n / 256 := by omega
  have e₂ : n / 16 % 16 = n / 16 % 16 := rfl
  rw [e₁]
  rfl

theorem hexDigits_four (n : Nat) (h₁ : 4096 ≤ n) (h₂ : n < 65536) :
    hexDigits n = [hexDigitChar (n / 4096), hexDigitChar (n / 256 % 16),
      hexDigitChar (n / 16 % 16), hexDigitChar (n % 16)] := by
  rw [hexDigits_eq, if_neg (by omega), hexDigits_three (n / 16) (by omega) (by omega)]
  have e₁ : n / 16 / 256 = n / 4096 := by omega
  have e₂ : n / 16 / 16 % 16 = n / 256 % 16 := by omega
  rw [e₁, e₂]
  rfl

theorem hex04_digits (n : Nat) (h : n < 65536) :
    hex04 n = [hexDigitChar (n / 4096), hexDigitChar (n / 256 % 16),
      hexDigitChar (n / 16 % 16), hexDigitChar (n % 16)] := by
  unfold hex04
  by_cases h₁ : n < 16
  · rw [hexDigits_small n h₁]
    have e₀ : n / 4096 = 0 := by omega
    have e₁ : n / 256 % 16 = 0 := by omega
    have e₂ : n / 16 % 16 = 0 := by omega
    have e₃ : n % 16 = n := by omega
    rw [e₀, e₁, e₂, e₃]
    rfl
  · by_cases h₂ : n < 256
    · rw [hexDigits_two n (by omega) h₂]
      have e₀ : n / 4096 = 0 := by omega
      have e₁ : n / 256 % 16 = 0 := by omega
      have e₂ : n / 16 % 16 = n / 16 := by omega
      rw [e₀, e₁, e₂]
      rfl
    · by_cases h₃ : n < 4096
      · rw [hexDigits_three n (by omega) h₃]
        have e₀ : n / 4096 = 0 := by omega
        have e₁ : n / 256 % 16 = n / 256 := by omega
        rw [e₀, e₁]
        rfl
      · rw [hexDigits_four n (by omega) h]
        rfl

theorem hexDigitVal_hexDigitChar (k : Nat) (h : k < 16) :
    hexDigitVal (hexDigitChar k) = some k := by
  unfold hexDigitVal hexDigitChar
  by_cases hk : k < 10
  · rw [if_pos hk, if_pos (by omega)]
    congr 1
    omega
  · rw [if_neg hk, if_neg (by omega), if_pos (by omega)]
    congr 1
    omega

/-- `strconv.ParseInt(s, 16, 32)` on the four length characters. -/
def parseHex4 (l : Bytes) : Option Nat :=
  match l with
  | [a, b, c, d] =>
    match hexDigitVal a, hexDigitVal b, hexDigitVal c, hexDigitVal d with
    | some x, some y, some z, some w => some (((x * 16 + y) * 16 + z) * 16 + w)
    | _, _, _, _ => none
  | _ => none

theorem parseHex4_hex04 (n : Nat) (h : n < 65536) : parseHex4 (hex04 n) = some n := by
  rw [hex04_digits n h]
  simp only [parseHex4, hexDigitVal_hexDigitChar (n / 4096) (by omega),
    hexDigitVal_hexDigitChar (n / 256 % 16) (by omega),
    hexDigitVal_hexDigitChar (n / 16 % 16) (by omega),
    hexDigitVal_hexDigitChar (n % 16) (by omega)]
  congr 1
  omega

inductive PktErr where
  | eof
  | badLength
  | tooShort
  deriving DecidableEq

def zeros4 : Bytes := [48, 48, 48, 48]

/-- `writePktLine` (`push.go:434-445`). -/
def writePktLine (data : Bytes) : Bytes :=
  if data = [] then zeros4
  else hex04 (data.length + 4) ++ data

/-- `readPktLine` (`push.go:447-476`) over a byte stream: the result pairs
the payload with the unconsumed remainder; a flush packet is returned as
the empty payload with a nil error, exactly like the Go `return "", nil`. -/
def readPktLine (input : Bytes) : Except PktErr (Bytes × Bytes) :=
  if input.length < 4 then .error .eof
  else
    if input.take 4 = zeros4 then .ok ([], input.drop 4)
    else
      match parseHex4 (input.take 4) with
      | none => .error .badLength
      | some len =>
        if len < 4 then .error .tooShort
        else if (input.drop 4).length < len - 4 then .error .eof
        else .ok ((input.drop 4).take (len - 4), (input.drop 4).drop (len - 4))

/-- Claim C6, amended: for a nonempty payload whose length plus 4 fits the
four hex characters the format allots (length ≤ 65531), encoding then
decoding returns the payload exactly and consumes exactly the packet;
encoding the empty string produces exactly `"0000"`; and decoding `"0000"`
returns an empty payload and no error.  The flush result is NOT
distinguishable from decoding the empty payload line `"0004"`, and a
payload longer than 65531 bytes breaks the framing (see the
counterexample). -/
theorem pktline_roundtrip (s extra : Bytes) (hne : s ≠ [])
    (hlen : s.length + 4 < 65536) :
    readPktLine (writePktLine s ++ extra) = .ok (s, extra)
    ∧ writePktLine [] = zeros4
    ∧ readPktLine (zeros4 ++ extra) = .ok ([], extra) := by
  refine ⟨?_, rfl, ?_⟩
  · have hd4 := hex04_digits (s.length + 4) hlen
    have hdl : (hex04 (s.length + 4)).length = 4 := by rw [hd4]; rfl
    have hw : writePktLine s ++ extra = hex04 (s.length + 4) ++ (s ++ extra) := by
      unfold writePktLine
      rw [if_neg hne]
      simp
    rw [hw]
    unfold readPktLine
    have hlen2 : (hex04 (s.length + 4) ++ (s ++ extra)).length
        = 4 + (s.length + extra.length) := by
      simp [hdl]
    rw [if_neg (by rw [hlen2]; omega)]
    rw [List.take_left' hdl, List.drop_left' hdl]
    have hnz : hex04 (s.length + 4) ≠ zeros4 := by
      intro heq
      have hp := parseHex4_hex04 (s.length + 4) hlen
      rw [heq] at hp
      have h0 : parseHex4 zeros4 = some 0 := by rfl
      rw [h0] at hp
      injection hp with hp
      omega
    rw [if_neg hnz]
    simp only [parseHex4_hex04 (s.length + 4) hlen]
    rw [if_neg (by omega)]
    have hsub : s.length + 4 - 4 = s.length := by omega
    rw [hsub]
    rw [if_neg (by simp)]
    rw [List.take_left s extra, List.drop_left s extra]
  · unfold readPktLine
    rw [if_neg (by simp [zeros4])]
    rw [List.take_left' (show (zeros4 : Bytes).length = 4 from rfl),
      List.drop_left' (show (zeros4 : Bytes).length = 4 from rfl)]
    rw [if_pos rfl]

/-- Witness for the amended C6 at a concrete input: the payload `"hi"`
followed by a further stream byte round-trips, and the flush forms hold. -/
theorem pktline_roundtrip_witness :
    readPktLine (writePktLine [104, 105] ++ [120]) = .ok ([104, 105], [120])
    ∧ writePktLine [] = zeros4
    ∧ readPktLine (zeros4 ++ [120]) = .ok ([], [120]) :=
  pktline_roundtrip [104, 105] [120] (by decide) (by decide)

def bigPayload : Bytes := List.replicate 65532 97

/-- Counterexample for claim C6 as stated.  First conjunct: decoding the
encoding of the empty string (`"0000"`, the flush packet) gives exactly the
same result as decoding the empty payload line `"0004"` — the flush signal
is not distinguishable.  Second conjunct: for the 65532-byte payload the
length prefix `65536` renders as five hex digits `"10000"`, the reader
consumes only `"1000"`, and the round trip fails. -/
theorem pktline_cex :
    readPktLine (writePktLine [] ++ [97]) = readPktLine ([48, 48, 48, 52] ++ [97])
    ∧ readPktLine (writePktLine bigPayload) ≠ .ok (bigPayload, []) := by
  constructor
  · rfl
  · intro heq
    have hlen : bigPayload.length = 65532 := by
      show (List.replicate 65532 97).length = 65532
      rw [List.length_replicate]
    have hne : bigPayload ≠ [] := by
      intro h
      have hl := congrArg List.length h
      rw [hlen] at hl
      simp at hl
    have hhex : hex04 65536 = [49, 48, 48, 48, 48] := by
      have d5 : hexDigits 1 = [hexDigitChar 1] := hexDigits_small 1 (by omega)
      have d4 : hexDigits 16 = hexDigits 1 ++ [hexDigitChar 0] := by
        rw [hexDigits_eq]
        norm_num
      have d3 : hexDigits 256 = hexDigits 16 ++ [hexDigitChar 0] := by
        rw [hexDigits_eq]
        norm_num
      have d2 : hexDigits 4096 = hexDigits 256 ++ [hexDigitChar 0] := by
        rw [hexDigits_eq]
        norm_num
      have d1 : hexDigits 65536 = hexDigits 4096 ++ [hexDigitChar 0] := by
        rw [hexDigits_eq]
        norm_num
      unfold hex04
      rw [d1, d2, d3, d4, d5]
      rfl
    have hw : writePktLine bigPayload = ([49, 48, 48, 48] : Bytes) ++ (48 :: bigPayload) := by
      unfold writePktLine
      rw [if_neg hne, hlen, hhex]
      rfl
    rw [hw] at heq
    unfold readPktLine at heq
    have hlen3 : (48 :: bigPayload).length = 65533 := by
      rw [List.length_cons, hlen]
    have hlen2 : (([49, 48, 48, 48] : Bytes) ++ (48 :: bigPayload)).length = 65537 := by
      rw [List.length_append, hlen3]
      rfl
    rw [if_neg (by rw [hlen2]; omega)] at heq
    rw [List.take_left' (show ([49, 48, 48, 48] : Bytes).length = 4 from rfl),
      List.drop_left' (show ([49, 48, 48, 48] : Bytes).length = 4 from rfl)] at heq
    rw [if_neg (by decide)] at heq
    have hp : parseHex4 [49, 48, 48, 48] = some 4096 := by rfl
    simp only [hp] at heq
    rw [if_neg (by omega)] at heq
    rw [if_neg (by rw [hlen3]; omega)] at heq
    simp only [Except.ok.injEq, Prod.mk.injEq] at heq
    have hlt := congrArg List.length heq.1
    rw [List.length_take, hlen3, hlen] at hlt
    omega

/-! ## Reference deltas (`push.go:143-215`) -/

def writeVarIntAux : Nat → Nat → Bytes
  | 0, v => [v]
  | fuel + 1, v => if v < 128 then [v] else (v % 128 + 128) :: writeVarIntAux fuel (v / 128)

/-- `GitPush.writeVarInt` (`push.go:209-215`): little-endian base-128 with
a continuation bit (`byte(value)|0x80` stores the low seven bits with the
high bit forced; the final byte is below 128). -/
def writeVarInt (v : Nat) : Bytes := writeVarIntAux v v

theorem writeVarIntAux_congr : ∀ f₁ f₂ v : Nat, v ≤ f₁ → v ≤ f₂ →
    writeVarIntAux f₁ v = writeVarIntAux f₂ v := by
  intro f₁
  induction f₁ using Nat.strong_induction_on with
  | _ f₁ ih =>
    intro f₂ v h₁ h₂
    match f₁, f₂ with
    | 0, f₂ =>
      have hv : v = 0 := by omega
      subst hv
      match f₂ with
      | 0 => rfl
      | f₂ + 1 => simp [writeVarIntAux]
    | f₁ + 1, 0 =>
      have hv : v = 0 := by omega
      subst hv
      simp [writeVarIntAux]
    | f₁ + 1, f₂ + 1 =>
      simp only [writeVarIntAux]
      by_cases hv : v < 128
      · simp [hv]
      · have hds := Nat.div_lt_self (show 0 < v by omega) (show 1 < 128 by omega)
        simp only [hv, if_false]
        rw [ih f₁ (by omega) f₂ (v / 128) (by omega) (by omega)]

theorem writeVarInt_eq (v : Nat) :
    writeVarInt v = if v < 128 then [v] else (v % 128 + 128) :: writeVarInt (v / 128) := by
  by_cases hv : v < 128
  · unfold writeVarInt
    match v, hv with
    | 0, _ => simp [writeVarIntAux]
    | v + 1, hv => simp [writeVarIntAux, hv]
  · obtain ⟨m, hm⟩ : ∃ m, v = m + 1 := ⟨v - 1, by omega⟩
    unfold writeVarInt
    subst hm
    simp only [writeVarIntAux, hv, if_false]
    congr 1
    have hds := Nat.div_lt_self (show 0 < m + 1 by omega) (show 1 < 128 by omega)
    exact writeVarIntAux_congr m ((m + 1) / 128) ((m + 1) / 128) (by omega) (le_refl _)

/-- The varint reader matching `writeVarInt`'s encoding, as the spec's pack
format describes it (section 4.4: continuation-bit chains carrying seven
bits per byte, little-endian across the chain). -/
def parseVarInt : Bytes → Option (Nat × Bytes)
  | [] => none
  | b :: rest =>
    if b < 128 then some (b, rest)
    else
      match parseVarInt rest with
      | some (v, r) => some ((b - 128) + 128 * v, r)
      | none => none

theorem parseVarInt_writeVarInt (v : Nat) (t : Bytes) :
    parseVarInt (writeVarInt v ++ t) = some (v, t) := by
  induction v using Nat.strong_induction_on with
  | _ v ih =>
    rw [writeVarInt_eq]
    by_cases h : v < 128
    · rw [if_pos h]
      show parseVarInt (v :: t) = some (v, t)
      simp [parseVarInt, h]
    · rw [if_neg h]
      rw [List.cons_append]
      have hge : ¬ (v % 128 + 128 < 128) := by omega
      have hds := Nat.div_lt_self (show 0 < v by omega) (show 1 < 128 by omega)
      simp only [parseVarInt, hge, if_false, ih (v / 128) hds]
      have hval : v % 128 + 128 - 128 + 128 * (v / 128) = v := by omega
      rw [hval]

/-- The greedy common-run scan of `push.go:163-166`. -/
def commonPrefixLen : Bytes → Bytes → Nat
  | a :: as, b :: bs => if a = b then commonPrefixLen as bs + 1 else 0
  | _, _ => 0

/-- The insert-length lookahead loop of `push.go:178-190`; the fuel (127
at the top call) covers the `insertLen < 127` bound. -/
def insertLenFrom (base target : Bytes) (i j : Nat) : Nat → Nat → Nat
  | 0, il => il
  | fuel + 1, il =>
    if j + il < target.length ∧ il < 127 then
      if 4 < commonPrefixLen (base.drop i) (target.drop (j + il)) then il
      else insertLenFrom base target i j fuel (il + 1)
    else il

def goInsertLen (base target : Bytes) (i j : Nat) : Nat :=
  insertLenFrom base target i j 127 1

/-- The main loop of `GitPush.CreateDelta` (`push.go:160-203`), returning
the emitted instruction bytes together with the final target cursor `j`
(so that the size of the trailing remainder is visible to the theorems).
The loop advances `j` by at least one per iteration, so the wrapper's fuel
`target.length + 1` never runs out; the trailing
`delta.WriteByte(byte(remaining)); delta.Write(targetData[j:])` of
`push.go:198-203` is the loop-exit branch. -/
def deltaLoopF (base target : Bytes) : Nat → Nat → Nat → Bytes × Nat
  | 0, _, j => ([], j)
  | fuel + 1, i, j =>
    if i < base.length ∧ j < target.length then
      if 4 < commonPrefixLen (base.drop i) (target.drop j) then
        let m := commonPrefixLen (base.drop i) (target.drop j)
        let res := deltaLoopF base target fuel (i + m) (j + m)
        (145 :: (writeVarInt i ++ (writeVarInt m ++ res.1)), res.2)
      else
        let il := goInsertLen base target i j
        let res := deltaLoopF base target fuel i (j + il)
        (il :: ((target.drop j).take il ++ res.1), res.2)
    else
      if j < target.length then (((target.length - j) % 256) :: target.drop j, j)
      else ([], j)

/-- `GitPush.CreateDelta` (`push.go:143-206`): nil for an empty base or
target, otherwise the two size varints followed by the instruction
stream. -/
def CreateDelta (base target : Bytes) : Bytes :=
  if base.length = 0 ∨ target.length = 0 then []
  else
    writeVarInt base.length ++ (writeVarInt target.length
      ++ (deltaLoopF base target (target.length + 1) 0 0).1)

/-- Modelled from the spec: the repository contains no delta decoder (the
remote applies the delta), so application of the instruction stream is the
spec's reading of sections 3 (Delta Record) and 4.4: a byte with the high
bit set is a copy instruction, here followed by the base offset and length
as varints exactly as `CreateDelta` emits them; a byte 1..127 inserts that
many literal bytes; byte 0 is invalid.  The fuel is an embedding artefact
(every instruction consumes at least one stream byte). -/
def applyInstrs (base : Bytes) : Nat → Bytes → Option Bytes
  | _, [] => some []
  | 0, _ :: _ => none
  | fuel + 1, b :: rest =>
    if 128 ≤ b then
      match parseVarInt rest with
      | none => none
      | some (off, r1) =>
        match parseVarInt r1 with
        | none => none
        | some (len, r2) =>
          if off + len ≤ base.length then
            match applyInstrs base fuel r2 with
            | none => none
            | some out => some ((base.drop off).take len ++ out)
          else none
    else if b = 0 then none
    else
      if b ≤ rest.length then
        match applyInstrs base fuel (rest.drop b) with
        | none => none
        | some out => some (rest.take b ++ out)
      else none

/-- Modelled from the spec: whole-delta application — read the declared
base and target sizes, check the base size, apply the instructions, check
the produced size. -/
def applyDelta (delta base : Bytes) : Option Bytes :=
  match parseVarInt delta with
  | none => none
  | some (bsize, r1) =>
    match parseVarInt r1 with
    | none => none
    | some (tsize, r2) =>
      if bsize = base.length then
        match applyInstrs base (r2.length + 1) r2 with
        | none => none
        | some out => if out.length = tsize then some out else none
      else none

theorem commonPrefixLen_le_left : ∀ a b : Bytes, commonPrefixLen a b ≤ a.length := by
  intro a
  induction a with
  | nil => intro b; cases b <;> simp [commonPrefixLen]
  | cons x xs ih =>
    intro b
    cases b with
    | nil => simp [commonPrefixLen]
    | cons y ys =>
      simp only [commonPrefixLen]
      by_cases hxy : x = y
      · rw [if_pos hxy]
        have := ih ys
        simp only [List.length_cons]
        omega
      · rw [if_neg hxy]
        simp

theorem commonPrefixLen_le_right : ∀ a b : Bytes, commonPrefixLen a b ≤ b.length := by
  intro a
  induction a with
  | nil => intro b; cases b <;> simp [commonPrefixLen]
  | cons x xs ih =>
    intro b
    cases b with
    | nil => simp [commonPrefixLen]
    | cons y ys =>
      simp only [commonPrefixLen]
      by_cases hxy : x = y
      · rw [if_pos hxy]
        have := ih ys
        simp only [List.length_cons]
        omega
      · rw [if_neg hxy]
        simp

theorem commonPrefixLen_take_eq : ∀ a b : Bytes,
    a.take (commonPrefixLen a b) = b.take (commonPrefixLen a b) := by
  intro a
  induction a with
  | nil => intro b; cases b <;> simp [commonPrefixLen]
  | cons x xs ih =>
    intro b
    cases b with
    | nil => simp [commonPrefixLen]
    | cons y ys =>
      simp only [commonPrefixLen]
      by_cases hxy : x = y
      · rw [if_pos hxy]
        subst hxy
        simp only [List.take_succ_cons]
        rw [ih ys]
      · rw [if_neg hxy]
        simp

theorem take_add_drop (l : Bytes) (j m : Nat) :
    (l.drop j).take m ++ l.drop (j + m) = l.drop j := by
  have hdd : l.drop (j + m) = (l.drop j).drop m := by
    rw [List.drop_drop]
  rw [hdd]
  exact List.take_append_drop m (l.drop j)

theorem writeVarInt_length_pos (v : Nat) : 1 ≤ (writeVarInt v).length := by
  rw [writeVarInt_eq]
  by_cases h : v < 128 <;> simp [h]

theorem insertLenFrom_bounds (base target : Bytes) (i j : Nat) : ∀ fuel il,
    1 ≤ il → il ≤ 127 → j + il ≤ target.length →
    1 ≤ insertLenFrom base target i j fuel il
    ∧ insertLenFrom base target i j fuel il ≤ 127
    ∧ j + insertLenFrom base target i j fuel il ≤ target.length := by
  intro fuel
  induction fuel with
  | zero =>
    intro il h₁ h₂ h₃
    exact ⟨h₁, h₂, h₃⟩
  | succ fuel ih =>
    intro il h₁ h₂ h₃
    simp only [insertLenFrom]
    by_cases hc : j + il < target.length ∧ il < 127
    · rw [if_pos hc]
      by_cases hm : 4 < commonPrefixLen (base.drop i) (target.drop (j + il))
      · rw [if_pos hm]
        exact ⟨h₁, h₂, h₃⟩
      · rw [if_neg hm]
        exact ih (il + 1) (by omega) (by omega) (by omega)
    · rw [if_neg hc]
      exact ⟨h₁, h₂, h₃⟩

theorem goInsertLen_bounds (base target : Bytes) (i j : Nat) (hj : j < target.length) :
    1 ≤ goInsertLen base target i j ∧ goInsertLen base target i j ≤ 127
    ∧ j + goInsertLen base target i j ≤ target.length :=
  insertLenFrom_bounds base target i j 127 1 (by omega) (by omega) (by omega)

theorem deltaLoopF_correct (base target : Bytes) : ∀ fuel i j,
    i ≤ base.length → j ≤ target.length → target.length - j < fuel →
    target.length - (deltaLoopF base target fuel i j).2 ≤ 127 →
    ∀ fuelA, (deltaLoopF base target fuel i j).1.length < fuelA →
      applyInstrs base fuelA (deltaLoopF base target fuel i j).1
        = some (target.drop j) := by
  intro fuel
  induction fuel using Nat.strong_induction_on with
  | _ fuel ih =>
    intro i j hi hj hfuel hrem fuelA hfa
    match fuel, hfuel with
    | fuel + 1, hfuel =>
      by_cases hcond : i < base.length ∧ j < target.length
      · by_cases hm : 4 < commonPrefixLen (base.drop i) (target.drop j)
        · -- copy branch
          have hunf : deltaLoopF base target (fuel + 1) i j
              = (145 :: (writeVarInt i ++ (writeVarInt (commonPrefixLen (base.drop i) (target.drop j))
                  ++ (deltaLoopF base target fuel
                    (i + commonPrefixLen (base.drop i) (target.drop j))
                    (j + commonPrefixLen (base.drop i) (target.drop j))).1)),
                (deltaLoopF base target fuel
                  (i + commonPrefixLen (base.drop i) (target.drop j))
                  (j + commonPrefixLen (base.drop i) (target.drop j))).2) := by
            simp only [deltaLoopF]
            rw [if_pos hcond, if_pos hm]
          rw [hunf] at hrem hfa ⊢
          simp only at hrem hfa ⊢
          have hmleft := commonPrefixLen_le_left (base.drop i) (target.drop j)
          have hmright := commonPrefixLen_le_right (base.drop i) (target.drop j)
          rw [List.length_drop] at hmleft
          rw [List.length_drop] at hmright
          obtain ⟨fa, rfl⟩ : ∃ fa, fuelA = fa + 1 := by
            refine ⟨fuelA - 1, ?_⟩
            simp at hfa
            omega
          simp only [applyInstrs]
          rw [if_pos (show (128 : Nat) ≤ 145 by omega)]
          rw [parseVarInt_writeVarInt]
          simp only [parseVarInt_writeVarInt]
          rw [if_pos (show i + commonPrefixLen (base.drop i) (target.drop j)
            ≤ base.length by omega)]
          have hrec := ih fuel (by omega)
            (i + commonPrefixLen (base.drop i) (target.drop j))
            (j + commonPrefixLen (base.drop i) (target.drop j))
            (by omega) (by omega) (by omega) hrem fa
            (by
              have h1 := writeVarInt_length_pos i
              have h2 := writeVarInt_length_pos
                (commonPrefixLen (base.drop i) (target.drop j))
              simp at hfa
              omega)
          have htk := commonPrefixLen_take_eq (base.drop i) (target.drop j)
          rw [htk]
          simp only [hrec]
          rw [take_add_drop]
        · -- insert branch
          obtain ⟨hil1, hil127, hiltot⟩ := goInsertLen_bounds base target i j hcond.2
          have hunf : deltaLoopF base target (fuel + 1) i j
              = (goInsertLen base target i j
                  :: ((target.drop j).take (goInsertLen base target i j)
                    ++ (deltaLoopF base target fuel i
                      (j + goInsertLen base target i j)).1),
                (deltaLoopF base target fuel i (j + goInsertLen base target i j)).2) := by
            simp only [deltaLoopF]
            rw [if_pos hcond, if_neg hm]
          rw [hunf] at hrem hfa ⊢
          simp only at hrem hfa ⊢
          have hlentake : ((target.drop j).take (goInsertLen base target i j)).length
              = goInsertLen base target i j := by
            rw [List.length_take, List.length_drop]
            omega
          obtain ⟨fa, rfl⟩ : ∃ fa, fuelA = fa + 1 := by
            refine ⟨fuelA - 1, ?_⟩
            simp at hfa
            omega
          simp only [applyInstrs]
          rw [if_neg (show ¬ (128 : Nat) ≤ goInsertLen base target i j by omega),
            if_neg (show ¬ goInsertLen base target i j = 0 by omega)]
          rw [if_pos (by
            rw [List.length_append, hlentake]
            omega)]
          rw [List.take_left' hlentake, List.drop_left' hlentake]
          have hrec := ih fuel (by omega) i (j + goInsertLen base target i j)
            (by omega) (by omega) (by omega) hrem fa
            (by
              simp [hlentake] at hfa
              omega)
          simp only [hrec]
          rw [take_add_drop]
      · -- loop exit
        by_cases hjl : j < target.length
        · have hunf : deltaLoopF base target (fuel + 1) i j
              = (((target.length - j) % 256) :: target.drop j, j) := by
            simp only [deltaLoopF]
            rw [if_neg hcond, if_pos hjl]
          rw [hunf] at hrem hfa ⊢
          simp only at hrem hfa ⊢
          have hmod : (target.length - j) % 256 = target.length - j :=
            Nat.mod_eq_of_lt (by omega)
          rw [hmod] at hfa ⊢
          obtain ⟨fa, rfl⟩ : ∃ fa, fuelA = fa + 1 := by
            refine ⟨fuelA - 1, ?_⟩
            simp at hfa
            omega
          have hdlen : (target.drop j).length = target.length - j := List.length_drop j target
          simp only [applyInstrs]
          rw [if_neg (show ¬ (128 : Nat) ≤ target.length - j by omega),
            if_neg (show ¬ target.length - j = 0 by omega)]
          rw [if_pos (by rw [hdlen])]
          have hdropnil : (target.drop j).drop (target.length - j) = [] := by
            rw [← hdlen]
            exact List.drop_length (target.drop j)
          rw [hdropnil]
          have happly : applyInstrs base fa ([] : Bytes) = some [] := by
            cases fa <;> rfl
          simp only [happly]
          have htake : (target.drop j).take (target.length - j) = target.drop j := by
            rw [← hdlen]
            exact List.take_length (target.drop j)
          rw [htake, List.append_nil]
        · have hje : j = target.length := by omega
          have hunf : deltaLoopF base target (fuel + 1) i j = ([], j) := by
            simp only [deltaLoopF]
            rw [if_neg hcond, if_neg hjl]
          rw [hunf]
          simp only
          have happly : applyInstrs base fuelA ([] : Bytes) = some [] := by
            cases fuelA <;> rfl
          rw [happly]
          subst hje
          rw [List.drop_length]


/-- Claim C4, amended: for NONEMPTY base and target whose final unmatched
tail (the `remaining` of `push.go:198-203`, visible as the final cursor of
`deltaLoopF`) is at most 127 bytes, applying the delta produced by
`CreateDelta` to the base reconstructs the target byte-for-byte.  The
claim as stated fails for empty inputs — `CreateDelta` returns nil
(`push.go:147-149`), which is not an applicable delta — and for targets
whose trailing remainder exceeds 127 bytes, where `byte(remaining)`
truncates and can even flip the instruction's type bit. -/
theorem applyDelta_CreateDelta (base target : Bytes)
    (hb : base ≠ []) (ht : target ≠ [])
    (hrem : target.length - (deltaLoopF base target (target.length + 1) 0 0).2 ≤ 127) :
    applyDelta (CreateDelta base target) base = some target := by
  have hbl : base.length ≠ 0 := by simpa using hb
  have htl : target.length ≠ 0 := by simpa using ht
  unfold CreateDelta
  rw [if_neg (by rintro (h | h); exacts [hbl h, htl h])]
  unfold applyDelta
  simp only [parseVarInt_writeVarInt]
  rw [if_pos trivial]
  have hc := deltaLoopF_correct base target (target.length + 1) 0 0 (by omega) (by omega)
    (by omega) hrem ((deltaLoopF base target (target.length + 1) 0 0).1.length + 1)
    (by omega)
  rw [List.drop_zero] at hc
  simp only [hc]
  simp

/-- Witness for the amended C4 at concrete inputs: base `"hello world"`,
target `"say hello world!"` (a delta with an insert, a copy of the shared
11-byte run, and a trailing insert). -/
theorem applyDelta_CreateDelta_witness :
    applyDelta (CreateDelta (chars ['h', 'e', 'l', 'l', 'o', ' ', 'w', 'o', 'r', 'l', 'd'])
        (chars ['s', 'a', 'y', ' ', 'h', 'e', 'l', 'l', 'o', ' ', 'w', 'o', 'r', 'l', 'd', '!']))
        (chars ['h', 'e', 'l', 'l', 'o', ' ', 'w', 'o', 'r', 'l', 'd'])
      = some (chars ['s', 'a', 'y', ' ', 'h', 'e', 'l', 'l', 'o', ' ', 'w', 'o', 'r', 'l', 'd', '!']) :=
  applyDelta_CreateDelta
    (chars ['h', 'e', 'l', 'l', 'o', ' ', 'w', 'o', 'r', 'l', 'd'])
    (chars ['s', 'a', 'y', ' ', 'h', 'e', 'l', 'l', 'o', ' ', 'w', 'o', 'r', 'l', 'd', '!'])
    (by decide) (by decide) (by decide)

/-- Counterexample for claim C4 as stated: the claim includes empty base
or target strings, but `CreateDelta("", "a")` is nil, and applying it to
the base does not reconstruct the target. -/
theorem CreateDelta_empty_cex :
    CreateDelta [] [97] = [] ∧ applyDelta (CreateDelta [] [97]) [] ≠ some [97] := by
  constructor
  · rfl
  · decide

/-! ## Reachability traversal and objects-to-send
(`ObjectStore.traverseObjects` and `ObjectStore.GetObjectsToSend`,
`part_005:137-221`). -/

/-- References followed by the `"tree"` case of `traverseObjects`
(`part_005:198-217`): scan for a null byte, stop silently when none is left or
when fewer than 21 bytes remain from it, otherwise hex-encode the 20 hash
bytes and continue past them.  Fuel is the remaining length; every round
consumes at least 21 bytes, so it never runs out. -/
def treeEntryRefsAux : Nat → Bytes → List Bytes
  | 0, _ => []
  | fuel + 1, data =>
    if data.length = 0 then []
    else
      match indexOfByte 0 data with
      | none => []
      | some nullIndex =>
        if data.length < nullIndex + 21 then []
        else hexEncode ((data.drop (nullIndex + 1)).take 20)
          :: treeEntryRefsAux fuel (data.drop (nullIndex + 21))

def treeEntryRefs (data : Bytes) : List Bytes := treeEntryRefsAux data.length data

/-- References followed by the `"commit"` case of `traverseObjects`
(`part_005:183-197`): split the content on newlines and take the
`"tree "`- and `"parent "`-headed lines, in order. -/
def commitRefs (content : Bytes) : List Bytes :=
  (splitOnByte 10 content).filterMap (fun line =>
    if line.take 5 = treeWord ++ [32] then some (line.drop 5)
    else if line.take 7 = parentWord ++ [32] then some (line.drop 7)
    else none)

/-- The digests a successfully read object makes `traverseObjects` recurse
into (`part_005:181-218`): commit lines, tree entries, nothing for blobs. -/
def objRefs (obj : Object) : List Bytes :=
  if obj.type = commitKind then commitRefs obj.content
  else if obj.type = treeKind then treeEntryRefs obj.content
  else []

/-- The same reference list read off a raw stored stream (what `objRefs`
yields on a successful `ReadObject` of that stream); the fuel measure of the
traversal is built from it. -/
def objRefsOfData (d : Bytes) : List Bytes :=
  match indexOfByte 0 d with
  | none => []
  | some nullIndex =>
    match splitN2 32 (d.take nullIndex) with
    | none => []
    | some (t, _) =>
      objRefs ⟨t, (d.drop (nullIndex + 1)).length, d.drop (nullIndex + 1), []⟩

/-- Outcomes of a traversal: a propagated `ReadObject` error, or exhaustion of
the embedding's fuel (which `traverseObjects_terminates` proves impossible). -/
inductive TravErr where
  | read (e : ReadErr)
  | fuelOut
  deriving DecidableEq

/-- `ObjectStore.traverseObjects` (`part_005:171-221`) in worklist form: pop a
digest; skip it if visited; otherwise mark it, read it (an error aborts the
whole traversal keeping the partially filled visited set, exactly like the
in-place Go map), and push its references in front of the rest of the
worklist.  Prepending `objRefs obj` preserves Go's depth-first order, so the
sequence of mark/read events — hence the visited set at every point,
including an abort — is the same as in the Go recursion. -/
def traverseStep (s : Store) : Nat → List Bytes → List Bytes → List Bytes × Option TravErr
  | 0, pending, v =>
    match pending with
    | [] => (v, none)
    | _ :: _ => (v, some .fuelOut)
  | fuel + 1, pending, v =>
    match pending with
    | [] => (v, none)
    | h :: rest =>
      if h ∈ v then traverseStep s fuel rest v
      else
        match ReadObject s h with
        | .error e => (h :: v, some (.read e))
        | .ok obj => traverseStep s fuel (objRefs obj ++ rest) (h :: v)

/-- Weight of one store entry in the fuel measure: one for marking it plus one
per reference it contributes to the worklist. -/
def entryWeight (p : Bytes × Bytes) : Nat := 1 + (objRefsOfData p.2).length

/-- Total weight of the store entries not yet visited. -/
def unvisitedWeight (s : Store) (v : List Bytes) : Nat :=
  match s with
  | [] => 0
  | p :: r => (if p.1 ∈ v then 0 else entryWeight p) + unvisitedWeight r v

/-- `ObjectStore.traverseObjects` from one root, with fuel ample enough for
any store (proved by `traverseObjects_terminates`). -/
def traverseObjects (s : Store) (h : Bytes) (v : List Bytes) :
    List Bytes × Option TravErr :=
  traverseStep s (unvisitedWeight s [] + 2) [h] v

theorem traverseStep_nil (s : Store) (fuel : Nat) (v : List Bytes) :
    traverseStep s fuel [] v = (v, none) := by
  cases fuel <;> rfl

theorem traverseStep_zero_cons (s : Store) (h : Bytes) (rest v : List Bytes) :
    traverseStep s 0 (h :: rest) v = (v, some .fuelOut) := rfl

theorem traverseStep_succ (s : Store) (fuel : Nat) (h : Bytes) (rest v : List Bytes) :
    traverseStep s (fuel + 1) (h :: rest) v
      = if h ∈ v then traverseStep s fuel rest v
        else
          match ReadObject s h with
          | .error e => (h :: v, some (.read e))
          | .ok obj => traverseStep s fuel (objRefs obj ++ rest) (h :: v) := rfl

theorem traverseStep_visited (s : Store) (fuel : Nat) (h : Bytes) (rest v : List Bytes)
    (hv : h ∈ v) :
    traverseStep s (fuel + 1) (h :: rest) v = traverseStep s fuel rest v := by
  rw [traverseStep_succ, if_pos hv]

theorem traverseStep_error (s : Store) (fuel : Nat) (h : Bytes) (rest v : List Bytes)
    (hv : h ∉ v) (e : ReadErr) (hro : ReadObject s h = .error e) :
    traverseStep s (fuel + 1) (h :: rest) v = (h :: v, some (.read e)) := by
  rw [traverseStep_succ, if_neg hv]
  simp only [hro]

theorem traverseStep_ok (s : Store) (fuel : Nat) (h : Bytes) (rest v : List Bytes)
    (hv : h ∉ v) (obj : Object) (hro : ReadObject s h = .ok obj) :
    traverseStep s (fuel + 1) (h :: rest) v
      = traverseStep s fuel (objRefs obj ++ rest) (h :: v) := by
  rw [traverseStep_succ, if_neg hv]
  simp only [hro]

theorem unvisitedWeight_mono (s : Store) : ∀ v v' : List Bytes, v ⊆ v' →
    unvisitedWeight s v' ≤ unvisitedWeight s v := by
  induction s with
  | nil => intro v v' _; exact Nat.le_refl 0
  | cons p r ih =>
    intro v v' hsub
    show (if p.1 ∈ v' then 0 else entryWeight p) + unvisitedWeight r v'
      ≤ (if p.1 ∈ v then 0 else entryWeight p) + unvisitedWeight r v
    have h2 := ih v v' hsub
    by_cases hv : p.1 ∈ v
    · rw [if_pos hv, if_pos (hsub hv)]
      omega
    · rw [if_neg hv]
      by_cases hv' : p.1 ∈ v'
      · rw [if_pos hv']; omega
      · rw [if_neg hv']; omega

theorem unvisitedWeight_mark (s : Store) : ∀ (v : List Bytes) (h d : Bytes),
    storeLookup s h = some d → h ∉ v →
    unvisitedWeight s (h :: v) + entryWeight (h, d) ≤ unvisitedWeight s v := by
  induction s with
  | nil => intro v h d hl _; simp [storeLookup] at hl
  | cons p r ih =>
    intro v h d hl hnv
    obtain ⟨k, dd⟩ := p
    simp only [storeLookup] at hl
    show (if k ∈ h :: v then 0 else entryWeight (k, dd)) + unvisitedWeight r (h :: v)
        + entryWeight (h, d)
      ≤ (if k ∈ v then 0 else entryWeight (k, dd)) + unvisitedWeight r v
    by_cases hk : k = h
    · rw [if_pos hk] at hl
      injection hl with hd
      subst hd
      subst hk
      rw [if_pos (List.mem_cons_self k v), if_neg hnv]
      have := unvisitedWeight_mono r v (k :: v) (List.subset_cons_self k v)
      omega
    · rw [if_neg hk] at hl
      have ihh := ih v h d hl hnv
      have hmem : k ∈ h :: v ↔ k ∈ v := by
        constructor
        · intro hx
          rcases List.mem_cons.mp hx with hx | hx
          · exact absurd hx hk
          · exact hx
        · exact fun hx => List.mem_cons_of_mem _ hx
      by_cases hkv : k ∈ v
      · rw [if_pos hkv, if_pos (hmem.mpr hkv)]; omega
      · rw [if_neg hkv, if_neg (fun hx => hkv (hmem.mp hx))]; omega

theorem ReadObject_ok_refs (s : Store) (h : Bytes) (obj : Object)
    (hok : ReadObject s h = .ok obj) :
    ∃ d, storeLookup s h = some d ∧ objRefs obj = objRefsOfData d := by
  unfold ReadObject at hok
  by_cases hlen : h.length < 4
  · rw [if_pos hlen] at hok; exact absurd hok (by simp)
  rw [if_neg hlen] at hok
  cases hsl : storeLookup s h with
  | none =>
    simp only [hsl] at hok
    exact Except.noConfusion hok
  | some d =>
    simp only [hsl] at hok
    refine ⟨d, rfl, ?_⟩
    unfold objRefsOfData
    cases hni : indexOfByte 0 d with
    | none =>
      simp only [hni] at hok
      exact Except.noConfusion hok
    | some nullIndex =>
      simp only [hni] at hok
      cases hsp : splitN2 32 (d.take nullIndex) with
      | none =>
        simp only [hsp] at hok
        exact Except.noConfusion hok
      | some td =>
        obtain ⟨t, rest⟩ := td
        simp only [hsp] at hok
        injection hok with hobj
        rw [← hobj]
        simp only [hsp]
        simp [objRefs]

theorem traverseStep_no_fuelOut (s : Store) : ∀ fuel pending v,
    pending.length + unvisitedWeight s v < fuel →
    (traverseStep s fuel pending v).2 ≠ some TravErr.fuelOut := by
  intro fuel
  induction fuel with
  | zero => intro pending v hw; exact absurd hw (Nat.not_lt_zero _)
  | succ fuel ih =>
    intro pending v hw
    cases pending with
    | nil => rw [traverseStep_nil]; simp
    | cons h rest =>
      by_cases hv : h ∈ v
      · rw [traverseStep_visited s fuel h rest v hv]
        apply ih
        have h1 : (h :: rest).length = rest.length + 1 := rfl
        omega
      · cases hro : ReadObject s h with
        | error e =>
          rw [traverseStep_error s fuel h rest v hv e hro]
          exact fun hc => TravErr.noConfusion (Option.some.inj hc)
        | ok obj =>
          rw [traverseStep_ok s fuel h rest v hv obj hro]
          obtain ⟨d, hsl, hrefs⟩ := ReadObject_ok_refs s h obj hro
          apply ih
          have hmark := unvisitedWeight_mark s v h d hsl hv
          have h1 : (objRefs obj ++ rest).length
              = (objRefs obj).length + rest.length := List.length_append _ _
          have h2 : (objRefs obj).length = (objRefsOfData d).length := by rw [hrefs]
          have h3 : (h :: rest).length = rest.length + 1 := rfl
          have h4 : entryWeight (h, d) = 1 + (objRefsOfData d).length := rfl
          omega

/-- Claim C8 (traversal termination): on every store — in particular every
DAG of commits and trees, however much sharing it has — `traverseObjects`
terminates: the visited set makes the supplied fuel, derived from the number
of unvisited store entries and their references, provably sufficient, so the
fuel-exhaustion outcome never occurs and the Go recursion it embeds makes
finitely many calls. -/
theorem traverseObjects_terminates (s : Store) (h : Bytes) (v : List Bytes) :
    (traverseObjects s h v).2 ≠ some TravErr.fuelOut := by
  apply traverseStep_no_fuelOut
  have hm := unvisitedWeight_mono s [] v (List.nil_subset v)
  have h1 : ([h] : List Bytes).length = 1 := rfl
  omega

/-! ## Reachability and `GetObjectsToSend` (`part_005:137-168`). -/

/-- `x` is reachable from `a` through chains of `objRefs` of successfully
read objects — the closure `traverseObjects` walks. -/
inductive Reaches (s : Store) : Bytes → Bytes → Prop
  | refl (a : Bytes) : Reaches s a a
  | step {a b r : Bytes} {obj : Object} :
      Reaches s a b → ReadObject s b = .ok obj → r ∈ objRefs obj → Reaches s a r

theorem Reaches.trans {s : Store} {a b c : Bytes}
    (h1 : Reaches s a b) (h2 : Reaches s b c) : Reaches s a c := by
  induction h2 with
  | refl => exact h1
  | step _ hro hr ih => exact Reaches.step ih hro hr

theorem Reaches.edge {s : Store} {a r : Bytes} {obj : Object}
    (hro : ReadObject s a = .ok obj) (hr : r ∈ objRefs obj) : Reaches s a r :=
  Reaches.step (Reaches.refl a) hro hr

/-- A digest reached from an unreadable digest is that digest itself. -/
theorem reach_eq_or_readable {s : Store} {a x : Bytes} (hx : Reaches s a x) :
    a = x ∨ Readable s a := by
  induction hx with
  | refl => exact Or.inl rfl
  | step _ hro _ ih =>
    rcases ih with h1 | h1
    · exact Or.inr ⟨_, by rw [h1]; exact hro⟩
    · exact Or.inr h1

theorem traverseStep_mono (s : Store) : ∀ (fuel : Nat) (pending v : List Bytes),
    v ⊆ (traverseStep s fuel pending v).1 := by
  intro fuel
  induction fuel with
  | zero =>
    intro pending v
    cases pending with
    | nil => rw [traverseStep_nil]; exact fun _ hx => hx
    | cons h rest => rw [traverseStep_zero_cons]; exact fun _ hx => hx
  | succ fuel ih =>
    intro pending v
    cases pending with
    | nil => rw [traverseStep_nil]; exact fun _ hx => hx
    | cons h rest =>
      by_cases hv : h ∈ v
      · rw [traverseStep_visited s fuel h rest v hv]
        exact ih rest v
      · cases hro : ReadObject s h with
        | error e =>
          rw [traverseStep_error s fuel h rest v hv e hro]
          exact fun x hx => List.mem_cons_of_mem h hx
        | ok obj =>
          rw [traverseStep_ok s fuel h rest v hv obj hro]
          exact fun x hx => ih (objRefs obj ++ rest) (h :: v) (List.mem_cons_of_mem h hx)

/-- Everything the traversal visits was already visited or is reachable from
the worklist. -/
theorem traverseStep_sound (s : Store) : ∀ (fuel : Nat) (pending v : List Bytes) (x : Bytes),
    x ∈ (traverseStep s fuel pending v).1 →
    x ∈ v ∨ ∃ p ∈ pending, Reaches s p x := by
  intro fuel
  induction fuel with
  | zero =>
    intro pending v x hx
    cases pending with
    | nil => rw [traverseStep_nil] at hx; exact Or.inl hx
    | cons h rest => rw [traverseStep_zero_cons] at hx; exact Or.inl hx
  | succ fuel ih =>
    intro pending v x hx
    cases pending with
    | nil => rw [traverseStep_nil] at hx; exact Or.inl hx
    | cons h rest =>
      by_cases hv : h ∈ v
      · rw [traverseStep_visited s fuel h rest v hv] at hx
        rcases ih rest v x hx with h1 | ⟨p, hp, hr⟩
        · exact Or.inl h1
        · exact Or.inr ⟨p, List.mem_cons_of_mem h hp, hr⟩
      · cases hro : ReadObject s h with
        | error e =>
          rw [traverseStep_error s fuel h rest v hv e hro] at hx
          rcases List.mem_cons.mp hx with h1 | h1
          · exact Or.inr ⟨h, List.mem_cons_self h rest, by rw [h1]; exact Reaches.refl h⟩
          · exact Or.inl h1
        | ok obj =>
          rw [traverseStep_ok s fuel h rest v hv obj hro] at hx
          rcases ih (objRefs obj ++ rest) (h :: v) x hx with h1 | ⟨p, hp, hr⟩
          · rcases List.mem_cons.mp h1 with h2 | h2
            · exact Or.inr ⟨h, List.mem_cons_self h rest, by rw [h2]; exact Reaches.refl h⟩
            · exact Or.inl h2
          · rcases List.mem_append.mp hp with h2 | h2
            · exact Or.inr ⟨h, List.mem_cons_self h rest,
                Reaches.trans (Reaches.edge hro h2) hr⟩
            · exact Or.inr ⟨p, List.mem_cons_of_mem h h2, hr⟩

/-- Every reference of every readable visited digest lands back in the
visited set or in the exception list `E`. -/
def ClosedExcept (s : Store) (v E : List Bytes) : Prop :=
  ∀ h ∈ v, ∀ obj, ReadObject s h = .ok obj → ∀ r ∈ objRefs obj, r ∈ v ∨ r ∈ E

/-- On success the visited set is reference-closed and absorbs the worklist. -/
theorem traverseStep_post (s : Store) : ∀ (fuel : Nat) (pending v E : List Bytes),
    ClosedExcept s v (E ++ pending) →
    (traverseStep s fuel pending v).2 = none →
    ClosedExcept s (traverseStep s fuel pending v).1 E
      ∧ ∀ p ∈ pending, p ∈ (traverseStep s fuel pending v).1 := by
  intro fuel
  induction fuel with
  | zero =>
    intro pending v E hc hnone
    cases pending with
    | nil =>
      rw [traverseStep_nil]
      rw [List.append_nil] at hc
      exact ⟨hc, fun p hp => absurd hp (List.not_mem_nil p)⟩
    | cons h rest =>
      rw [traverseStep_zero_cons] at hnone
      exact Option.noConfusion hnone
  | succ fuel ih =>
    intro pending v E hc hnone
    cases pending with
    | nil =>
      rw [traverseStep_nil]
      rw [List.append_nil] at hc
      exact ⟨hc, fun p hp => absurd hp (List.not_mem_nil p)⟩
    | cons h rest =>
      by_cases hv : h ∈ v
      · rw [traverseStep_visited s fuel h rest v hv] at hnone ⊢
        have hc' : ClosedExcept s v (E ++ rest) := by
          intro u hu obj hro r hr
          rcases hc u hu obj hro r hr with h1 | h1
          · exact Or.inl h1
          · rcases List.mem_append.mp h1 with h2 | h2
            · exact Or.inr (List.mem_append.mpr (Or.inl h2))
            · rcases List.mem_cons.mp h2 with h3 | h3
              · exact Or.inl (by rw [h3]; exact hv)
              · exact Or.inr (List.mem_append.mpr (Or.inr h3))
        obtain ⟨hcl, hsub⟩ := ih rest v E hc' hnone
        refine ⟨hcl, ?_⟩
        intro p hp
        rcases List.mem_cons.mp hp with h1 | h1
        · rw [h1]; exact traverseStep_mono s fuel rest v hv
        · exact hsub p h1
      · cases hro : ReadObject s h with
        | error e =>
          rw [traverseStep_error s fuel h rest v hv e hro] at hnone
          exact Option.noConfusion hnone
        | ok obj =>
          rw [traverseStep_ok s fuel h rest v hv obj hro] at hnone ⊢
          have hc' : ClosedExcept s (h :: v) (E ++ (objRefs obj ++ rest)) := by
            intro u hu obj' hro' r hr
            rcases List.mem_cons.mp hu with h1 | h1
            · rw [h1] at hro'
              have hoo : obj = obj' := Except.ok.inj (hro.symm.trans hro')
              rw [← hoo] at hr
              exact Or.inr (List.mem_append.mpr (Or.inr (List.mem_append.mpr (Or.inl hr))))
            · rcases hc u h1 obj' hro' r hr with h2 | h2
              · exact Or.inl (List.mem_cons_of_mem h h2)
              · rcases List.mem_append.mp h2 with h3 | h3
                · exact Or.inr (List.mem_append.mpr (Or.inl h3))
                · rcases List.mem_cons.mp h3 with h4 | h4
                  · exact Or.inl (by rw [h4]; exact List.mem_cons_self h v)
                  · exact Or.inr (List.mem_append.mpr (Or.inr (List.mem_append.mpr (Or.inr h4))))
          obtain ⟨hcl, hsub⟩ := ih (objRefs obj ++ rest) (h :: v) E hc' hnone
          refine ⟨hcl, ?_⟩
          intro p hp
          rcases List.mem_cons.mp hp with h1 | h1
          · rw [h1]
            exact traverseStep_mono s fuel (objRefs obj ++ rest) (h :: v)
              (List.mem_cons_self h v)
          · exact hsub p (List.mem_append.mpr (Or.inr h1))

/-- With enough fuel and every digest reachable from the worklist readable,
the traversal succeeds. -/
theorem traverseStep_success (s : Store) : ∀ (fuel : Nat) (pending v : List Bytes),
    pending.length + unvisitedWeight s v < fuel →
    (∀ p ∈ pending, ∀ x, Reaches s p x → Readable s x) →
    (traverseStep s fuel pending v).2 = none := by
  intro fuel
  induction fuel with
  | zero => intro pending v hw _; exact absurd hw (Nat.not_lt_zero _)
  | succ fuel ih =>
    intro pending v hw hreach
    cases pending with
    | nil => rw [traverseStep_nil]
    | cons h rest =>
      by_cases hv : h ∈ v
      · rw [traverseStep_visited s fuel h rest v hv]
        apply ih
        · have h1 : (h :: rest).length = rest.length + 1 := rfl
          omega
        · exact fun p hp => hreach p (List.mem_cons_of_mem h hp)
      · obtain ⟨obj, hro⟩ : Readable s h :=
          hreach h (List.mem_cons_self h rest) h (Reaches.refl h)
        rw [traverseStep_ok s fuel h rest v hv obj hro]
        obtain ⟨d, hsl, hrefs⟩ := ReadObject_ok_refs s h obj hro
        apply ih
        · have hmark := unvisitedWeight_mark s v h d hsl hv
          have h1 : (objRefs obj ++ rest).length
              = (objRefs obj).length + rest.length := List.length_append _ _
          have h2 : (objRefs obj).length = (objRefsOfData d).length := by rw [hrefs]
          have h3 : (h :: rest).length = rest.length + 1 := rfl
          have h4 : entryWeight (h, d) = 1 + (objRefsOfData d).length := rfl
          omega
        · intro p hp x hx
          rcases List.mem_append.mp hp with h1 | h1
          · exact hreach h (List.mem_cons_self h rest) x
              (Reaches.trans (Reaches.edge hro h1) hx)
          · exact hreach p (List.mem_cons_of_mem h h1) x hx

/-- A reference-closed set absorbs everything reachable from its members. -/
theorem reach_mem_of_closed (s : Store) (w : List Bytes)
    (hcl : ClosedExcept s w []) {a x : Bytes} (ha : a ∈ w) (hx : Reaches s a x) :
    x ∈ w := by
  induction hx with
  | refl => exact ha
  | step _ hro hr ih =>
    rcases hcl _ ih _ hro _ hr with h1 | h1
    · exact h1
    · exact absurd h1 (List.not_mem_nil _)

/-- On success every visited digest is readable (every mark is followed by a
successful read). -/
theorem traverseStep_readable (s : Store) : ∀ (fuel : Nat) (pending v : List Bytes),
    (∀ u ∈ v, Readable s u) →
    (traverseStep s fuel pending v).2 = none →
    ∀ u ∈ (traverseStep s fuel pending v).1, Readable s u := by
  intro fuel
  induction fuel with
  | zero =>
    intro pending v hv hnone
    cases pending with
    | nil => rw [traverseStep_nil]; exact hv
    | cons h rest =>
      rw [traverseStep_zero_cons] at hnone
      exact Option.noConfusion hnone
  | succ fuel ih =>
    intro pending v hv hnone
    cases pending with
    | nil => rw [traverseStep_nil]; exact hv
    | cons h rest =>
      by_cases hmem : h ∈ v
      · rw [traverseStep_visited s fuel h rest v hmem] at hnone ⊢
        exact ih rest v hv hnone
      · cases hro : ReadObject s h with
        | error e =>
          rw [traverseStep_error s fuel h rest v hmem e hro] at hnone
          exact Option.noConfusion hnone
        | ok obj =>
          rw [traverseStep_ok s fuel h rest v hmem obj hro] at hnone ⊢
          apply ih _ _ _ hnone
          intro u hu
          rcases List.mem_cons.mp hu with h1 | h1
          · exact ⟨obj, by rw [h1]; exact hro⟩
          · exact hv u h1

/-- Full characterization of one `traverseObjects` call from a closed visited
set, when everything reachable from the root is readable: it succeeds, and the
result is the old set plus exactly the digests reachable from the root. -/
theorem traverseObjects_char (s : Store) (h : Bytes) (v : List Bytes)
    (hcl : ClosedExcept s v [])
    (hreach : ∀ x, Reaches s h x → Readable s x) :
    (traverseObjects s h v).2 = none
      ∧ ClosedExcept s (traverseObjects s h v).1 []
      ∧ (∀ x, x ∈ (traverseObjects s h v).1 ↔ x ∈ v ∨ Reaches s h x) := by
  have hw : ([h] : List Bytes).length + unvisitedWeight s v
      < unvisitedWeight s [] + 2 := by
    have := unvisitedWeight_mono s [] v (List.nil_subset v)
    have h1 : ([h] : List Bytes).length = 1 := rfl
    omega
  have hre : ∀ p ∈ ([h] : List Bytes), ∀ x, Reaches s p x → Readable s x := by
    intro p hp x hx
    rcases List.mem_cons.mp hp with h1 | h1
    · exact hreach x (by rw [← h1]; exact hx)
    · exact absurd h1 (List.not_mem_nil p)
  have hnone : (traverseObjects s h v).2 = none :=
    traverseStep_success s (unvisitedWeight s [] + 2) [h] v hw hre
  have hcE : ClosedExcept s v ([] ++ [h]) := by
    intro u hu obj hro r hr
    rcases hcl u hu obj hro r hr with h1 | h1
    · exact Or.inl h1
    · exact absurd h1 (List.not_mem_nil r)
  obtain ⟨hclosed, hsub⟩ :=
    traverseStep_post s (unvisitedWeight s [] + 2) [h] v [] hcE hnone
  refine ⟨hnone, hclosed, ?_⟩
  intro x
  constructor
  · intro hx
    rcases traverseStep_sound s (unvisitedWeight s [] + 2) [h] v x hx with h1 | ⟨p, hp, hr⟩
    · exact Or.inl h1
    · rcases List.mem_cons.mp hp with h2 | h2
      · exact Or.inr (by rw [← h2]; exact hr)
      · exact absurd h2 (List.not_mem_nil p)
  · intro hx
    rcases hx with h1 | h1
    · exact traverseStep_mono s (unvisitedWeight s [] + 2) [h] v h1
    · exact reach_mem_of_closed s _ hclosed (hsub h (List.mem_cons_self h [])) h1

/-- A successful traversal from scratch certifies that everything reachable
from its root is readable. -/
theorem reach_readable_of_success (s : Store) (L : Bytes)
    (hsucc : (traverseObjects s L []).2 = none) :
    ∀ x, Reaches s L x → Readable s x := by
  intro x hx
  have hcE : ClosedExcept s [] ([] ++ [L]) :=
    fun u hu => absurd hu (List.not_mem_nil u)
  obtain ⟨hclosed, hsub⟩ :=
    traverseStep_post s (unvisitedWeight s [] + 2) [L] [] [] hcE hsucc
  have hxin : x ∈ (traverseObjects s L []).1 :=
    reach_mem_of_closed s _ hclosed (hsub L (List.mem_cons_self L [])) hx
  exact traverseStep_readable s (unvisitedWeight s [] + 2) [L] []
    (fun u hu => absurd hu (List.not_mem_nil u)) hsucc x hxin

/-- The all-zero placeholder digest for a branch the remote does not yet have
(`"000...0"`, 40 zero characters, `part_005:148`). -/
def zeros40 : Bytes := List.replicate 40 48

/-- The remote loop of `GetObjectsToSend` (`part_005:146-155`): traverse each
non-zero remote head into the shared `remoteObjects` map; on error the loop
`continue`s, but the marks made before the abort stay in the shared map. -/
def collectRemoteObjects (s : Store) : List Bytes → List Bytes → List Bytes
  | [], acc => acc
  | rc :: rest, acc =>
    collectRemoteObjects s rest
      (if rc = zeros40 then acc else (traverseObjects s rc acc).1)

/-- `ObjectStore.GetObjectsToSend` (`part_005:137-168`): digests reachable
from the local head, minus those marked by the remote loop, sorted
(`sort.Strings`; after sorting, Go's map iteration order is immaterial, so the
map is modelled by the visited list). -/
def GetObjectsToSend (s : Store) (localCommit : Bytes) (remoteCommits : List Bytes) :
    Except TravErr (List Bytes) :=
  match traverseObjects s localCommit [] with
  | (_, some e) => .error e
  | (localObjects, none) =>
      let remoteObjects := collectRemoteObjects s remoteCommits []
      .ok (List.insertionSort DigestLe
        (localObjects.filter (fun x => decide (x ∉ remoteObjects))))

/-- What the remote loop accumulates: the starting marks, everything
reachable from a fully-readable non-zero remote head, and — for a readable
head whose traversal aborts part-way this lemma does not apply; under the
head-trilemma hypothesis the only extra marks of an unreadable head are the
head itself. -/
theorem collectRemoteObjects_char (s : Store) :
    ∀ (remotes acc : List Bytes),
    ClosedExcept s acc [] →
    (∀ rc ∈ remotes, rc = zeros40 ∨ ¬ Readable s rc
      ∨ (∀ x, Reaches s rc x → Readable s x)) →
    ClosedExcept s (collectRemoteObjects s remotes acc) []
      ∧ ∀ x, x ∈ collectRemoteObjects s remotes acc ↔
          x ∈ acc ∨ ∃ rc ∈ remotes, rc ≠ zeros40 ∧
            ((Readable s rc ∧ Reaches s rc x) ∨ (¬ Readable s rc ∧ x = rc)) := by
  intro remotes
  induction remotes with
  | nil =>
    intro acc hacc _
    refine ⟨hacc, fun x => ?_⟩
    constructor
    · exact fun hx => Or.inl hx
    · intro hx
      rcases hx with h1 | ⟨rc, hrc, _⟩
      · exact h1
      · exact absurd hrc (List.not_mem_nil rc)
  | cons rc rest ih =>
    intro acc hacc hrem
    have hrc0 := hrem rc (List.mem_cons_self rc rest)
    have hrest : ∀ r ∈ rest, r = zeros40 ∨ ¬ Readable s r
        ∨ (∀ x, Reaches s r x → Readable s x) :=
      fun r hr => hrem r (List.mem_cons_of_mem rc hr)
    by_cases hz : rc = zeros40
    · have hstep : collectRemoteObjects s (rc :: rest) acc
          = collectRemoteObjects s rest acc := by
        show collectRemoteObjects s rest (if rc = zeros40 then acc else _) = _
        rw [if_pos hz]
      rw [hstep]
      obtain ⟨hcl, hmem⟩ := ih acc hacc hrest
      refine ⟨hcl, fun x => ?_⟩
      rw [hmem x]
      constructor
      · intro hx
        rcases hx with h1 | ⟨r, hr, hne, hrr⟩
        · exact Or.inl h1
        · exact Or.inr ⟨r, List.mem_cons_of_mem rc hr, hne, hrr⟩
      · intro hx
        rcases hx with h1 | ⟨r, hr, hne, hrr⟩
        · exact Or.inl h1
        · rcases List.mem_cons.mp hr with h2 | h2
          · exact absurd (h2.trans hz) hne
          · exact Or.inr ⟨r, h2, hne, hrr⟩
    · have hstep : collectRemoteObjects s (rc :: rest) acc
          = collectRemoteObjects s rest ((traverseObjects s rc acc).1) := by
        show collectRemoteObjects s rest (if rc = zeros40 then acc else _) = _
        rw [if_neg hz]
      rw [hstep]
      rcases hrc0 with h1 | hunread | hfull
      · exact absurd h1 hz
      · by_cases hin : rc ∈ acc
        · have hT1 : (traverseObjects s rc acc).1 = acc := by
            show (traverseStep s (unvisitedWeight s [] + 2) [rc] acc).1 = acc
            have h2 : unvisitedWeight s [] + 2 = (unvisitedWeight s [] + 1) + 1 := rfl
            rw [h2, traverseStep_visited s _ rc [] acc hin, traverseStep_nil]
          rw [hT1]
          obtain ⟨hcl, hmem⟩ := ih acc hacc hrest
          refine ⟨hcl, fun x => ?_⟩
          rw [hmem x]
          constructor
          · intro hx
            rcases hx with h1 | ⟨r, hr, hne, hrr⟩
            · exact Or.inl h1
            · exact Or.inr ⟨r, List.mem_cons_of_mem rc hr, hne, hrr⟩
          · intro hx
            rcases hx with h1 | ⟨r, hr, hne, hrr⟩
            · exact Or.inl h1
            · rcases List.mem_cons.mp hr with h2 | h2
              · rw [h2] at hrr
                rcases hrr with ⟨hreadr, _⟩ | ⟨_, hxr⟩
                · exact absurd hreadr hunread
                · exact Or.inl (by rw [hxr]; exact hin)
              · exact Or.inr ⟨r, h2, hne, hrr⟩
        · obtain ⟨e, herr⟩ : ∃ e, ReadObject s rc = .error e := by
            cases hro : ReadObject s rc with
            | error e => exact ⟨e, rfl⟩
            | ok obj => exact absurd ⟨obj, hro⟩ hunread
          have hT1 : (traverseObjects s rc acc).1 = rc :: acc := by
            show (traverseStep s (unvisitedWeight s [] + 2) [rc] acc).1 = _
            have h2 : unvisitedWeight s [] + 2 = (unvisitedWeight s [] + 1) + 1 := rfl
            rw [h2, traverseStep_error s _ rc [] acc hin e herr]
          rw [hT1]
          have hacc' : ClosedExcept s (rc :: acc) [] := by
            intro u hu obj hro r hr
            rcases List.mem_cons.mp hu with h2 | h2
            · exact absurd ⟨obj, by rw [← h2]; exact hro⟩ hunread
            · rcases hacc u h2 obj hro r hr with h3 | h3
              · exact Or.inl (List.mem_cons_of_mem rc h3)
              · exact absurd h3 (List.not_mem_nil r)
          obtain ⟨hcl, hmem⟩ := ih (rc :: acc) hacc' hrest
          refine ⟨hcl, fun x => ?_⟩
          rw [hmem x]
          constructor
          · intro hx
            rcases hx with h1 | ⟨r, hr, hne, hrr⟩
            · rcases List.mem_cons.mp h1 with h2 | h2
              · exact Or.inr ⟨rc, List.mem_cons_self rc rest, hz, Or.inr ⟨hunread, h2⟩⟩
              · exact Or.inl h2
            · exact Or.inr ⟨r, List.mem_cons_of_mem rc hr, hne, hrr⟩
          · intro hx
            rcases hx with h1 | ⟨r, hr, hne, hrr⟩
            · exact Or.inl (List.mem_cons_of_mem rc h1)
            · rcases List.mem_cons.mp hr with h2 | h2
              · rw [h2] at hrr
                rcases hrr with ⟨hreadr, _⟩ | ⟨_, hxr⟩
                · exact absurd hreadr hunread
                · exact Or.inl (by rw [hxr]; exact List.mem_cons_self rc acc)
              · exact Or.inr ⟨r, h2, hne, hrr⟩
      · obtain ⟨_, hclosed, hmemT⟩ := traverseObjects_char s rc acc hacc hfull
        obtain ⟨hcl, hmem⟩ := ih ((traverseObjects s rc acc).1) hclosed hrest
        refine ⟨hcl, fun x => ?_⟩
        rw [hmem x]
        have hrcRead : Readable s rc := hfull rc (Reaches.refl rc)
        constructor
        · intro hx
          rcases hx with h1 | ⟨r, hr, hne, hrr⟩
          · rcases (hmemT x).mp h1 with h2 | h2
            · exact Or.inl h2
            · exact Or.inr ⟨rc, List.mem_cons_self rc rest, hz, Or.inl ⟨hrcRead, h2⟩⟩
          · exact Or.inr ⟨r, List.mem_cons_of_mem rc hr, hne, hrr⟩
        · intro hx
          rcases hx with h1 | ⟨r, hr, hne, hrr⟩
          · exact Or.inl ((hmemT x).mpr (Or.inl h1))
          · rcases List.mem_cons.mp hr with h2 | h2
            · rw [h2] at hrr
              rcases hrr with ⟨_, hreach2⟩ | ⟨hnr, _⟩
              · exact Or.inl ((hmemT x).mpr (Or.inr hreach2))
              · exact absurd hrcRead hnr
            · exact Or.inr ⟨r, h2, hne, hrr⟩

/-- Claim C5 (amended — objects-to-send semantics): provided everything
reachable from the local head is locally readable and every remote head is
the all-zero placeholder, not locally readable, or has a fully locally
readable reachable closure, `GetObjectsToSend` succeeds and returns, sorted
ascending lexicographically, exactly the digests reachable from the local
head from which no non-zero remote head reaches — the claimed set difference.
An unreadable remote head contributes nothing and causes no error.  The
proviso on readable remote heads is necessary: if a remote traversal aborts
part-way on an unreadable inner object, the partially marked set is kept
(shared map), and the subtraction silently loses the rest of that remote's
closure (`GetObjectsToSend_cex`). -/
theorem GetObjectsToSend_spec (s : Store) (L : Bytes) (remotes : List Bytes)
    (hloc : ∀ x, Reaches s L x → Readable s x)
    (hrem : ∀ rc ∈ remotes, rc = zeros40 ∨ ¬ Readable s rc
      ∨ (∀ x, Reaches s rc x → Readable s x)) :
    ∃ out, GetObjectsToSend s L remotes = .ok out
      ∧ (∀ x, x ∈ out ↔ Reaches s L x
          ∧ ∀ rc ∈ remotes, rc ≠ zeros40 → ¬ Reaches s rc x)
      ∧ List.Sorted DigestLe out := by
  obtain ⟨hnone, hclosedL, hmemL⟩ :=
    traverseObjects_char s L [] (fun u hu => absurd hu (List.not_mem_nil u)) hloc
  have hT : traverseObjects s L [] = ((traverseObjects s L []).1, none) := by
    have h1 : traverseObjects s L []
        = ((traverseObjects s L []).1, (traverseObjects s L []).2) := rfl
    rw [hnone] at h1
    exact h1
  have hG : GetObjectsToSend s L remotes
      = .ok (List.insertionSort DigestLe
          (((traverseObjects s L []).1).filter
            (fun x => decide (x ∉ collectRemoteObjects s remotes [])))) := by
    unfold GetObjectsToSend
    rw [hT]
  obtain ⟨hclR, hmemR⟩ := collectRemoteObjects_char s remotes []
      (fun u hu => absurd hu (List.not_mem_nil u)) hrem
  refine ⟨_, hG, ?_, ?_⟩
  · intro x
    have hperm := List.perm_insertionSort DigestLe
      (((traverseObjects s L []).1).filter
        (fun x => decide (x ∉ collectRemoteObjects s remotes [])))
    rw [List.Perm.mem_iff hperm, List.mem_filter]
    constructor
    · rintro ⟨hxlo, hxf⟩
      have hxr : x ∉ collectRemoteObjects s remotes [] := of_decide_eq_true hxf
      have hreachL : Reaches s L x := by
        rcases (hmemL x).mp hxlo with h1 | h1
        · exact absurd h1 (List.not_mem_nil x)
        · exact h1
      refine ⟨hreachL, ?_⟩
      intro rc hrc hne hcontra
      apply hxr
      rw [hmemR x]
      refine Or.inr ⟨rc, hrc, hne, ?_⟩
      by_cases hread : Readable s rc
      · exact Or.inl ⟨hread, hcontra⟩
      · rcases reach_eq_or_readable hcontra with h2 | h2
        · exact Or.inr ⟨hread, h2.symm⟩
        · exact absurd h2 hread
    · rintro ⟨hreachL, hnone2⟩
      refine ⟨(hmemL x).mpr (Or.inr hreachL), ?_⟩
      apply decide_eq_true
      intro hxRS
      rcases (hmemR x).mp hxRS with h1 | ⟨rc, hrc, hne, hrr⟩
      · exact absurd h1 (List.not_mem_nil x)
      · rcases hrr with ⟨_, hrx⟩ | ⟨_, hxrc⟩
        · exact hnone2 rc hrc hne hrx
        · exact hnone2 rc hrc hne (by rw [hxrc]; exact Reaches.refl rc)
  · exact List.sorted_insertionSort DigestLe _

/-- A two-object store for the witness: one commit pointing at one empty
tree, pushed against a remote that has nothing (the all-zero digest). -/
def witTreeDigest : Bytes := chars ['d', 'd', 'd', 'd']

def witCommitDigest : Bytes := chars ['c', 'c', 'c', 'c']

def witCommitContent : Bytes :=
  chars ['t', 'r', 'e', 'e', ' ', 'd', 'd', 'd', 'd'] ++ [10]

def witSendStore : Store :=
  [(witCommitDigest, objectHeader commitKind witCommitContent ++ witCommitContent),
   (witTreeDigest, objectHeader treeKind [] ++ [])]

/-- Witness for C5 at a concrete input: an initial push of one commit and one
tree against the all-zero remote head. -/
theorem GetObjectsToSend_spec_witness :
    ∃ out, GetObjectsToSend witSendStore witCommitDigest [zeros40] = .ok out
      ∧ (∀ x, x ∈ out ↔ Reaches witSendStore witCommitDigest x
          ∧ ∀ rc ∈ [zeros40], rc ≠ zeros40 → ¬ Reaches witSendStore rc x)
      ∧ List.Sorted DigestLe out := by
  apply GetObjectsToSend_spec
  · apply reach_readable_of_success
    rfl
  · intro rc hrc
    rcases List.mem_cons.mp hrc with h1 | h1
    · exact Or.inl h1
    · exact absurd h1 (List.not_mem_nil rc)

/-- The counterexample store: local head `cccc` (commit: tree `dddd`, parent
`eeee`), empty tree `dddd`, parent commit `eeee` (tree `dddd`), remote head
`ffff` (commit: tree `aaaa`, parent `eeee`) where `aaaa` is absent. -/
def cexL : Bytes := chars ['c', 'c', 'c', 'c']

def cexT : Bytes := chars ['d', 'd', 'd', 'd']

def cexP : Bytes := chars ['e', 'e', 'e', 'e']

def cexR : Bytes := chars ['f', 'f', 'f', 'f']

def cexContentL : Bytes :=
  chars ['t', 'r', 'e', 'e', ' ', 'd', 'd', 'd', 'd']
    ++ 10 :: chars ['p', 'a', 'r', 'e', 'n', 't', ' ', 'e', 'e', 'e', 'e'] ++ [10]

def cexContentP : Bytes :=
  chars ['t', 'r', 'e', 'e', ' ', 'd', 'd', 'd', 'd'] ++ [10]

def cexContentR : Bytes :=
  chars ['t', 'r', 'e', 'e', ' ', 'a', 'a', 'a', 'a']
    ++ 10 :: chars ['p', 'a', 'r', 'e', 'n', 't', ' ', 'e', 'e', 'e', 'e'] ++ [10]

def cexSendStore : Store :=
  [(cexL, objectHeader commitKind cexContentL ++ cexContentL),
   (cexT, objectHeader treeKind [] ++ []),
   (cexP, objectHeader commitKind cexContentP ++ cexContentP),
   (cexR, objectHeader commitKind cexContentR ++ cexContentR)]

/-- Counterexample to C5 as stated: remote head `ffff` exists locally and
reaches the shared parent commit `eeee`, but its traversal aborts on the
missing tree `aaaa` before ever marking `eeee`; the partial marks are kept
and the run reports success, so `eeee` (and the tree below it) are NOT
subtracted: the result is not the claimed set difference. -/
theorem GetObjectsToSend_cex :
    GetObjectsToSend cexSendStore cexL [cexR] = .ok [cexL, cexT, cexP]
      ∧ Reaches cexSendStore cexR cexP
      ∧ cexP ∈ [cexL, cexT, cexP] := by
  refine ⟨by rfl, ?_, by decide⟩
  exact Reaches.step (Reaches.refl cexR)
    (show ReadObject cexSendStore cexR
      = .ok ⟨commitKind, cexContentR.length, cexContentR, cexR⟩ from rfl)
    (by decide)

end MyGit
